import Mathlib

/-!
# Two-level perfect hashing (`fixedSet.cc`)

A shallow embedding of `HashCode`, `SquareMemoryHashSet`, `FixedSet` and the
command-line core of `src/fixedSet.cc`, followed by theorems about them.

Conventions of the embedding.

* `int` values are mathematical integers in the range `isInt`;
  `unsigned long long` and `size_t` values are natural numbers, and every
  arithmetic operation the source performs on them is reduced modulo `2 ^ 64`.
* `std::vector<T>` is `List T`; `v[i]` is `List.getD` (the default is never
  reached on the paths the source takes).
* `rand()` is an explicit finite list of the values it returns, consumed from
  the front.  A retry loop that needs a draw when the list is exhausted yields
  `none`: the run did not complete within the supplied draws.  A run of the
  program that completes consumes finitely many draws, so the completed runs
  are exactly the `some` results.
-/

namespace FixedSetCpp

/-! ## Constants -/

/-- The number of values of `unsigned long long` / `size_t` (64 bits). -/
def ULL_MOD : Nat := 2 ^ 64

/-- Marker of an empty slot (`fixedSet.cc`, line 15). -/
def NOT_USER_VALUE : Nat := 3000000000

/-- The bound `std::numeric_limits<int>::max()` (line 17). -/
def MAX_HASH_COEFF : Nat := 2147483647

/-- The modulus `HashCode::PRIME` (line 33). -/
def PRIME : Nat := 4294967311

/-- The constant `FixedSet::MEMORY_COEFF` (line 108). -/
def MEMORY_COEFF : Nat := 3

/-- The values of the C++ type `int` (32-bit two's complement). -/
def isInt (x : Int) : Prop := -2147483648 ≤ x ∧ x ≤ 2147483647

instance (x : Int) : Decidable (isInt x) := by
  unfold isInt; infer_instance

/-- Conversion of an `int` to `unsigned long long`: the value modulo `2 ^ 64`. -/
def toULL (number : Int) : Nat := (number % 18446744073709551616).toNat

/-! ## `HashCode` -/

/-- The members of `class HashCode` (lines 35-38). -/
structure HashCode where
  a_coeff : Nat
  b_coeff : Nat
  power : Nat
  deriving DecidableEq, Repr

namespace HashCode

/-- The state of a `HashCode` nobody has initialised yet.  The source leaves the
members indeterminate; they are never read before `InitializeRandomly`. -/
def indeterminate : HashCode := ⟨0, 0, 0⟩

/-- `HashCode::InitializeRandomly` (lines 22-26); `r1` and `r2` are the two
values returned by `rand()`, in the order of the calls. -/
def InitializeRandomly (power r1 r2 : Nat) : HashCode :=
  { power := power
    a_coeff := (1 + r1 % (MAX_HASH_COEFF - 1)) % ULL_MOD
    b_coeff := (1 + r2 % (MAX_HASH_COEFF - 1)) % ULL_MOD }

/-- `HashCode::operator()` (lines 28-30): the product and the sum are computed
in `unsigned long long`, after the conversion of `number` to that type.  The
source applies it only to objects initialised with a range `power > 0`. -/
def call (h : HashCode) (number : Int) : Nat :=
  ((h.a_coeff * toULL number + h.b_coeff) % ULL_MOD % PRIME) % h.power

end HashCode

/-! ## `SquareMemoryHashSet` -/

/-- `std::vector::resize(n, fill)`. -/
def resize {α : Type} (v : List α) (n : Nat) (fill : α) : List α :=
  v.take n ++ List.replicate (n - v.length) fill

/-- The members of `class SquareMemoryHashSet` (lines 58-60). -/
structure SquareMemoryHashSet where
  value_table : List Nat
  hash_code : HashCode
  deriving DecidableEq, Repr

namespace SquareMemoryHashSet

/-- A default-constructed `SquareMemoryHashSet`: no slots. -/
def fresh : SquareMemoryHashSet := ⟨[], HashCode.indeterminate⟩

instance : Inhabited SquareMemoryHashSet := ⟨fresh⟩

/-- The `for` loop of `MakeTable` (lines 71-80) on the numbers still to place.
`none` is the exit through `break` with `filled == false`; `some t` is the
normal exit, `filled == true`, with the table `t`. -/
def place (h : HashCode) : List Int → List Nat → Option (List Nat)
  | [], vt => some vt
  | x :: rest, vt =>
      if vt.getD (h.call x) 0 ≠ NOT_USER_VALUE then none
      else place h rest (vt.set (h.call x) (toULL x))

/-- The `while (!filled)` loop of `MakeTable` (lines 67-81) for a table of
`size` slots: each turn refills the table with `NOT_USER_VALUE`, draws a hash
function of range `size` and runs the placement loop. -/
def makeLoop (numbers : List Int) (size : Nat) :
    List Nat → Option (SquareMemoryHashSet × List Nat)
  | r1 :: r2 :: rs =>
      match place (HashCode.InitializeRandomly size r1 r2) numbers
          (List.replicate size NOT_USER_VALUE) with
      | some vt => some (⟨vt, HashCode.InitializeRandomly size r1 r2⟩, rs)
      | none => makeLoop numbers size rs
  | _ => none

/-- `SquareMemoryHashSet::MakeTable` (lines 62-82). -/
def MakeTable (s : SquareMemoryHashSet) (numbers : List Int) (rs : List Nat) :
    Option (SquareMemoryHashSet × List Nat) :=
  if s.value_table.isEmpty then some (s, rs)
  else makeLoop numbers s.value_table.length rs

/-- `SquareMemoryHashSet::Initialize` (lines 43-46); the product of the two
sizes is a `size_t`. -/
def Initialize (s : SquareMemoryHashSet) (numbers : List Int) (rs : List Nat) :
    Option (SquareMemoryHashSet × List Nat) :=
  MakeTable
    { s with value_table :=
        resize s.value_table ((numbers.length * numbers.length) % ULL_MOD) NOT_USER_VALUE }
    numbers rs

/-- `SquareMemoryHashSet::Contains` (lines 48-54); the comparison converts
`number` to `unsigned long long`. -/
def Contains (s : SquareMemoryHashSet) (number : Int) : Bool :=
  if s.value_table.isEmpty then false
  else s.value_table.getD (s.hash_code.call number) 0 == toULL number

end SquareMemoryHashSet

/-! ## `FixedSet` -/

/-- The members of `class FixedSet` (lines 110-112). -/
structure FixedSet where
  table : List SquareMemoryHashSet
  hash_code : HashCode
  deriving DecidableEq, Repr

namespace FixedSet

/-- A default-constructed `FixedSet`. -/
def fresh : FixedSet := ⟨[], HashCode.indeterminate⟩

/-- The statement `cell_content[hash].push_back(x)` (line 126). -/
def pushBack (cells : List (List Int)) (hash : Nat) (x : Int) : List (List Int) :=
  cells.set hash (cells.getD hash [] ++ [x])

/-- The distribution loop (lines 123-127) on the numbers still to distribute. -/
def distribute (h : HashCode) : List Int → List (List Int) → List (List Int)
  | [], cells => cells
  | x :: rest, cells => distribute h rest (pushBack cells (h.call x) x)

/-- The summation loop (lines 128-133), in `unsigned long long`. -/
def secondLayerPower (cells : List (List Int)) : Nat :=
  cells.foldl (fun acc c => (acc + (c.length * c.length) % ULL_MOD) % ULL_MOD) 0

/-- The `while (!created)` loop (lines 120-138) for `numbers` and a table of
`size` entries; it yields the accepted hash function and `cell_content`.
The comparison of line 135 is made in `double`; it is exact whenever
`3 * size < 2 ^ 53`. -/
def createLoop (numbers : List Int) (size : Nat) :
    List Nat → Option (HashCode × List (List Int) × List Nat)
  | r1 :: r2 :: rs =>
      if secondLayerPower
          (distribute (HashCode.InitializeRandomly size r1 r2) numbers
            (List.replicate numbers.length [])) < MEMORY_COEFF * size then
        some (HashCode.InitializeRandomly size r1 r2,
          distribute (HashCode.InitializeRandomly size r1 r2) numbers
            (List.replicate numbers.length []), rs)
      else createLoop numbers size rs
  | _ => none

/-- The last loop of `MakeTable` (lines 139-143) on the numbers still to visit:
each number initialises the second-level table of its cell. -/
def buildLoop (h : HashCode) (cells : List (List Int)) :
    List Int → List SquareMemoryHashSet → List Nat →
      Option (List SquareMemoryHashSet × List Nat)
  | [], table, rs => some (table, rs)
  | x :: rest, table, rs =>
      match (table.getD (h.call x) SquareMemoryHashSet.fresh).Initialize
          (cells.getD (h.call x) []) rs with
      | none => none
      | some (s, rs1) => buildLoop h cells rest (table.set (h.call x) s) rs1

/-- `FixedSet::MakeTable` (lines 114-144). -/
def MakeTable (fs : FixedSet) (numbers : List Int) (rs : List Nat) :
    Option (FixedSet × List Nat) :=
  if fs.table.isEmpty then some (fs, rs)
  else
    match createLoop numbers fs.table.length rs with
    | none => none
    | some (h, cells, rs1) =>
        match buildLoop h cells numbers fs.table rs1 with
        | none => none
        | some (table, rs2) => some (⟨table, h⟩, rs2)

/-- `FixedSet::Initialize` (lines 91-96). -/
def Initialize (fs : FixedSet) (numbers : List Int) (rs : List Nat) :
    Option (FixedSet × List Nat) :=
  MakeTable { fs with table := resize fs.table numbers.length SquareMemoryHashSet.fresh }
    numbers rs

/-- `FixedSet::Contains` (lines 98-104). -/
def Contains (fs : FixedSet) (number : Int) : Bool :=
  if fs.table.isEmpty then false
  else (fs.table.getD (fs.hash_code.call number) SquareMemoryHashSet.fresh).Contains number

/-- A build of a new `FixedSet` from `numbers`, as `test_numbers` performs it
(lines 170-171), with the draws `rs`. -/
def build (numbers : List Int) (rs : List Nat) : Option (FixedSet × List Nat) :=
  fresh.Initialize numbers rs

end FixedSet

/-! ## The command-line core -/

/-- `test_numbers` (lines 167-177): `none` when the build does not complete
within the draws `rs`. -/
def test_numbers (numbers requests : List Int) (rs : List Nat) : Option (List Bool) :=
  match FixedSet.build numbers rs with
  | none => none
  | some (set, _) => some (requests.map set.Contains)

/-- `write_answer` (lines 179-188): the lines written to `cout`, in order. -/
def write_answer (answer : List Bool) : List String :=
  answer.map (fun b => if b then "Yes" else "No")

/-! ## The states after a completed build -/

/-- The state in which a completed `SquareMemoryHashSet::Initialize(bucket)`
leaves the object: `size_t(k * k)` slots and, unless there are none, a drawn
hash function of that range under which one placement pass stored the bucket. -/
def SquareMemoryHashSet.BuiltFrom (bucket : List Int) (s : SquareMemoryHashSet) : Prop :=
  s.value_table.length = (bucket.length * bucket.length) % ULL_MOD ∧
  (s.value_table ≠ [] →
    (∃ r1 r2, s.hash_code = HashCode.InitializeRandomly s.value_table.length r1 r2) ∧
    SquareMemoryHashSet.place s.hash_code bucket
      (List.replicate s.value_table.length NOT_USER_VALUE) = some s.value_table)

/-- The numbers of the input that a hash function sends to cell `i`, in input
order: the content of `cell_content[i]` after the distribution loop. -/
def FixedSet.bucket (h : HashCode) (numbers : List Int) (i : Nat) : List Int :=
  numbers.filter (fun x => h.call x = i)

/-- The state in which a completed `FixedSet::Initialize(numbers)` leaves a
new object, for a non-empty input: one table entry per input number, an
accepted top-level hash function, and every entry built from its bucket. -/
def FixedSet.BuiltFrom (numbers : List Int) (fs : FixedSet) : Prop :=
  fs.table.length = numbers.length ∧
  (∃ r1 r2, fs.hash_code = HashCode.InitializeRandomly numbers.length r1 r2) ∧
  FixedSet.secondLayerPower
    ((List.range numbers.length).map (FixedSet.bucket fs.hash_code numbers))
      < MEMORY_COEFF * numbers.length ∧
  ∀ i, SquareMemoryHashSet.BuiltFrom (FixedSet.bucket fs.hash_code numbers i)
    (fs.table.getD i SquareMemoryHashSet.fresh)

/-! ## The hash family over the drawn coefficients -/

/-- The value `((a * x + b) mod P) mod m` computed over the integers with the
non-negative remainder, as the specification words it; to be compared with
`HashCode.call`. -/
def HashCode.exactValue (h : HashCode) (number : Int) : Int :=
  (((h.a_coeff : Int) * number + (h.b_coeff : Int)) % (PRIME : Int)) % (h.power : Int)

/-- The coefficients `InitializeRandomly` can produce:
`1 ≤ a, b ≤ MAX_HASH_COEFF - 1`. -/
def HashCode.drawRange : Finset Nat := Finset.Icc 1 (MAX_HASH_COEFF - 1)

/-- The coefficient pairs of the draw range whose hash function of range `m`
gives the keys `x` and `y` the same value. -/
@[irreducible]
def HashCode.collisions (m : Nat) (x y : Int) : Finset (Nat × Nat) :=
  (HashCode.drawRange ×ˢ HashCode.drawRange).filter
    (fun p => (HashCode.mk p.1 p.2 m).call x = (HashCode.mk p.1 p.2 m).call y)

/-- The coefficient pairs of the draw range with `a ≤ 2 ^ 30`. -/
@[irreducible]
def HashCode.lowPairs : Finset (Nat × Nat) :=
  (Finset.Icc 1 1073741824) ×ˢ HashCode.drawRange

/-- The pairs of different residues modulo `PRIME` that agree modulo `m`. -/
@[irreducible]
def congruentPairs (m : Nat) : Finset (Nat × Nat) :=
  ((Finset.range PRIME) ×ˢ (Finset.range PRIME)).filter
    (fun q : Nat × Nat => q.1 ≠ q.2 ∧ q.1 % m = q.2 % m)

/-! ## Placement passes over the drawn coefficients -/

/-- The coefficient pairs of the draw range for which one turn of the
`while (!filled)` loop of `SquareMemoryHashSet::MakeTable` on `bucket` ends with
`filled == true`. -/
@[irreducible]
def SquareMemoryHashSet.goodPairs (bucket : List Int) : Finset (Nat × Nat) :=
  (HashCode.drawRange ×ˢ HashCode.drawRange).filter
    (fun p => (SquareMemoryHashSet.place
      (HashCode.mk p.1 p.2 ((bucket.length * bucket.length) % ULL_MOD)) bucket
      (List.replicate ((bucket.length * bucket.length) % ULL_MOD) NOT_USER_VALUE)).isSome)

/-- A bucket of `131072` pairwise distinct `int` values: the negative multiples
`-32768 * (j + 1)` for `j < 65536`, the values `0, ..., 32767` and the values
`2147450880, ..., 2147483647`. -/
@[irreducible]
def wrapBucket : List Int :=
  (List.range 65536).map (fun j : Nat => -((32768 * (j + 1) : Nat) : Int)) ++
  ((List.range 32768).map (fun i : Nat => (i : Int)) ++
   (List.range 32768).map (fun i : Nat => ((2147450880 + i : Nat) : Int)))

/-- The value `HashCode::operator()` holds before the reduction by the range:
`(a_coeff * number + b_coeff) % PRIME`, computed in `unsigned long long`. -/
def HashCode.residue (h : HashCode) (number : Int) : Nat :=
  (h.a_coeff * toULL number + h.b_coeff) % ULL_MOD % PRIME

/-- The number of slots of a table that do not hold `NOT_USER_VALUE`. -/
def occupiedSlots (value_table : List Nat) : Nat :=
  (value_table.filter (fun v => v != NOT_USER_VALUE)).length

/-- A second-level table holds `x` in one of its slots. -/
def SquareMemoryHashSet.holds (s : SquareMemoryHashSet) (x : Int) : Prop :=
  toULL x ∈ s.value_table

instance (s : SquareMemoryHashSet) (x : Int) : Decidable (s.holds x) := by
  unfold SquareMemoryHashSet.holds; infer_instance

/-- The vector of all `2 ^ 32` values of `int`, in increasing order. -/
@[irreducible]
def allInts : List Int :=
  (List.range 4294967296).map (fun i : Nat => (i : Int) - 2147483648)

/-- The vector of `2 ^ 32` copies of `7`. -/
@[irreducible]
def sevens : List Int := List.replicate 4294967296 7

/-! ## The program with its run-time checks made explicit

The functions below repeat the ones above statement by statement; in addition
every remainder by `power` first checks that `power` is not zero, and every
subscript first checks that the index is below the size the vector has at that
moment.  A failed check ends the run with the `Fault`. -/

/-- The two faults a run can end with. -/
inductive Fault where
  | divisionByZero : Fault
  | indexOutOfRange : Fault
  deriving DecidableEq, Repr

/-- `HashCode::operator()` (lines 28-30) with the check of `% power`. -/
def HashCode.callChecked (h : HashCode) (number : Int) : Except Fault Nat :=
  if h.power = 0 then Except.error Fault.divisionByZero else Except.ok (h.call number)

namespace SquareMemoryHashSet

/-- The `for` loop of `MakeTable` (lines 71-80) with the checks of
`hash_code(*it)` and of `value_table[hash]`. -/
def placeChecked (h : HashCode) : List Int → List Nat → Except Fault (Option (List Nat))
  | [], vt => Except.ok (some vt)
  | x :: rest, vt =>
      match h.callChecked x with
      | Except.error e => Except.error e
      | Except.ok hash =>
          if vt.length ≤ hash then Except.error Fault.indexOutOfRange
          else if vt.getD hash 0 ≠ NOT_USER_VALUE then Except.ok none
          else placeChecked h rest (vt.set hash (toULL x))

/-- The `while (!filled)` loop of `MakeTable` (lines 67-81), checked. -/
def makeLoopChecked (numbers : List Int) (size : Nat) :
    List Nat → Except Fault (Option (SquareMemoryHashSet × List Nat))
  | r1 :: r2 :: rs =>
      match placeChecked (HashCode.InitializeRandomly size r1 r2) numbers
          (List.replicate size NOT_USER_VALUE) with
      | Except.error e => Except.error e
      | Except.ok (some vt) =>
          Except.ok (some (⟨vt, HashCode.InitializeRandomly size r1 r2⟩, rs))
      | Except.ok none => makeLoopChecked numbers size rs
  | _ => Except.ok none

/-- `SquareMemoryHashSet::MakeTable` (lines 62-82), checked. -/
def MakeTableChecked (s : SquareMemoryHashSet) (numbers : List Int) (rs : List Nat) :
    Except Fault (Option (SquareMemoryHashSet × List Nat)) :=
  if s.value_table.isEmpty then Except.ok (some (s, rs))
  else makeLoopChecked numbers s.value_table.length rs

/-- `SquareMemoryHashSet::Initialize` (lines 43-46), checked. -/
def InitializeChecked (s : SquareMemoryHashSet) (numbers : List Int) (rs : List Nat) :
    Except Fault (Option (SquareMemoryHashSet × List Nat)) :=
  MakeTableChecked
    { s with value_table :=
        resize s.value_table ((numbers.length * numbers.length) % ULL_MOD) NOT_USER_VALUE }
    numbers rs

/-- `SquareMemoryHashSet::Contains` (lines 48-54) with the checks of
`hash_code(number)` and of `value_table[hash]`. -/
def ContainsChecked (s : SquareMemoryHashSet) (number : Int) : Except Fault Bool :=
  if s.value_table.isEmpty then Except.ok false
  else
    match s.hash_code.callChecked number with
    | Except.error e => Except.error e
    | Except.ok hash =>
        if s.value_table.length ≤ hash then Except.error Fault.indexOutOfRange
        else Except.ok (s.value_table.getD hash 0 == toULL number)

end SquareMemoryHashSet

namespace FixedSet

/-- The distribution loop (lines 123-127) with the checks of `hash_code(*it)`
and of `cell_content[hash]`. -/
def distributeChecked (h : HashCode) :
    List Int → List (List Int) → Except Fault (List (List Int))
  | [], cells => Except.ok cells
  | x :: rest, cells =>
      match h.callChecked x with
      | Except.error e => Except.error e
      | Except.ok hash =>
          if cells.length ≤ hash then Except.error Fault.indexOutOfRange
          else distributeChecked h rest (pushBack cells hash x)

/-- The `while (!created)` loop (lines 120-138), checked. -/
def createLoopChecked (numbers : List Int) (size : Nat) :
    List Nat → Except Fault (Option (HashCode × List (List Int) × List Nat))
  | r1 :: r2 :: rs =>
      match distributeChecked (HashCode.InitializeRandomly size r1 r2) numbers
          (List.replicate numbers.length []) with
      | Except.error e => Except.error e
      | Except.ok cells =>
          if secondLayerPower cells < MEMORY_COEFF * size then
            Except.ok (some (HashCode.InitializeRandomly size r1 r2, cells, rs))
          else createLoopChecked numbers size rs
  | _ => Except.ok none

/-- The last loop of `MakeTable` (lines 139-143) with the checks of
`hash_code(*it)`, of `table[hash]` and of `cell_content[hash]`, and with the
checked `Initialize` of the second-level table. -/
def buildLoopChecked (h : HashCode) (cells : List (List Int)) :
    List Int → List SquareMemoryHashSet → List Nat →
      Except Fault (Option (List SquareMemoryHashSet × List Nat))
  | [], table, rs => Except.ok (some (table, rs))
  | x :: rest, table, rs =>
      match h.callChecked x with
      | Except.error e => Except.error e
      | Except.ok hash =>
          if table.length ≤ hash ∨ cells.length ≤ hash then
            Except.error Fault.indexOutOfRange
          else
            match (table.getD hash SquareMemoryHashSet.fresh).InitializeChecked
                (cells.getD hash []) rs with
            | Except.error e => Except.error e
            | Except.ok none => Except.ok none
            | Except.ok (some (s, rs1)) => buildLoopChecked h cells rest (table.set hash s) rs1

/-- `FixedSet::MakeTable` (lines 114-144), checked. -/
def MakeTableChecked (fs : FixedSet) (numbers : List Int) (rs : List Nat) :
    Except Fault (Option (FixedSet × List Nat)) :=
  if fs.table.isEmpty then Except.ok (some (fs, rs))
  else
    match createLoopChecked numbers fs.table.length rs with
    | Except.error e => Except.error e
    | Except.ok none => Except.ok none
    | Except.ok (some (h, cells, rs1)) =>
        match buildLoopChecked h cells numbers fs.table rs1 with
        | Except.error e => Except.error e
        | Except.ok none => Except.ok none
        | Except.ok (some (table, rs2)) => Except.ok (some (⟨table, h⟩, rs2))

/-- `FixedSet::Initialize` (lines 91-96), checked. -/
def InitializeChecked (fs : FixedSet) (numbers : List Int) (rs : List Nat) :
    Except Fault (Option (FixedSet × List Nat)) :=
  MakeTableChecked { fs with table := resize fs.table numbers.length SquareMemoryHashSet.fresh }
    numbers rs

/-- `FixedSet::Contains` (lines 98-104) with the checks of `hash_code(number)`
and of `table[hash]`, and with the checked `Contains` of the second-level
table. -/
def ContainsChecked (fs : FixedSet) (number : Int) : Except Fault Bool :=
  if fs.table.isEmpty then Except.ok false
  else
    match fs.hash_code.callChecked number with
    | Except.error e => Except.error e
    | Except.ok hash =>
        if fs.table.length ≤ hash then Except.error Fault.indexOutOfRange
        else (fs.table.getD hash SquareMemoryHashSet.fresh).ContainsChecked number

/-- A checked build of a new `FixedSet` from `numbers` with the draws `rs`. -/
def buildChecked (numbers : List Int) (rs : List Nat) :
    Except Fault (Option (FixedSet × List Nat)) :=
  fresh.InitializeChecked numbers rs

end FixedSet

/-- The query loop of `test_numbers` (lines 172-175), checked. -/
def queriesChecked (set : FixedSet) : List Int → Except Fault (List Bool)
  | [] => Except.ok []
  | q :: rest =>
      match set.ContainsChecked q with
      | Except.error e => Except.error e
      | Except.ok b =>
          match queriesChecked set rest with
          | Except.error e => Except.error e
          | Except.ok answer => Except.ok (b :: answer)

/-- `test_numbers` (lines 167-177), checked: the build, then the queries in
order. -/
def test_numbersChecked (numbers requests : List Int) (rs : List Nat) :
    Except Fault (Option (List Bool)) :=
  match FixedSet.buildChecked numbers rs with
  | Except.error e => Except.error e
  | Except.ok none => Except.ok none
  | Except.ok (some (set, _)) =>
      match queriesChecked set requests with
      | Except.error e => Except.error e
      | Except.ok answer => Except.ok (some answer)

/-! ## Sample runs -/

/-- A sequence of values of `rand()`. -/
def drawsA : List Nat := [0, 1, 2, 3, 4, 5, 6, 7, 8, 9]

/-- Another sequence of values of `rand()`. -/
def drawsB : List Nat := [0, 0, 0, 0, 0, 0, 0, 0, 0, 0]

/-- The set built from `1, 5, 9, 2` with the draws `drawsA`. -/
def sampleSetA : FixedSet :=
  ⟨[⟨[2], ⟨9, 10, 1⟩⟩, SquareMemoryHashSet.fresh, SquareMemoryHashSet.fresh,
    ⟨[3000000000, 3000000000, 3000000000, 3000000000, 3000000000, 3000000000, 1, 5, 9],
      ⟨7, 8, 9⟩⟩], ⟨1, 2, 4⟩⟩

/-- The set built from `1, 5, 9, 2` with the draws `drawsB`. -/
def sampleSetB : FixedSet :=
  ⟨[SquareMemoryHashSet.fresh, SquareMemoryHashSet.fresh,
    ⟨[3000000000, 9, 1, 3000000000, 3000000000, 3000000000, 5, 3000000000, 3000000000],
      ⟨1, 1, 9⟩⟩, ⟨[2], ⟨1, 1, 1⟩⟩], ⟨1, 1, 4⟩⟩

/-- A third sequence of values of `rand()`. -/
def drawsC : List Nat := [0, 1, 2, 3, 4, 5, 6, 7]

/-- The set built from `1000000000, -1000000000` with the draws `drawsC`. -/
def sampleSetC : FixedSet :=
  ⟨[⟨[3000000000, 1000000000, 3000000000, 18446744072709551616], ⟨7, 8, 4⟩⟩,
    SquareMemoryHashSet.fresh], ⟨1, 2, 2⟩⟩

/-! ## Conversions and the hash value -/

theorem toULL_lt (x : Int) : toULL x < ULL_MOD := by
  unfold toULL ULL_MOD; omega

theorem toULL_of_nonneg {x : Int} (h0 : 0 ≤ x) (hx : isInt x) : toULL x = x.toNat := by
  unfold isInt at hx; unfold toULL; omega

theorem toULL_of_neg {x : Int} (h0 : x < 0) (hx : isInt x) :
    (toULL x : Int) = x + 18446744073709551616 := by
  unfold isInt at hx; unfold toULL; omega

theorem toULL_injective {x y : Int} (hx : isInt x) (hy : isInt y)
    (h : toULL x = toULL y) : x = y := by
  unfold isInt at hx hy; unfold toULL at h; omega

theorem toULL_ne_NOT_USER_VALUE {x : Int} (hx : isInt x) : toULL x ≠ NOT_USER_VALUE := by
  unfold isInt at hx; unfold toULL NOT_USER_VALUE; omega

theorem HashCode.call_lt (h : HashCode) (hp : 0 < h.power) (x : Int) : h.call x < h.power := by
  unfold HashCode.call; exact Nat.mod_lt _ hp

theorem HashCode.power_InitializeRandomly (m r1 r2 : Nat) :
    (HashCode.InitializeRandomly m r1 r2).power = m := rfl

/-! ## Vector helpers -/

theorem getD_set_eq {α : Type} (l : List α) (i : Nat) (v d : α) (hi : i < l.length) :
    (l.set i v).getD i d = v := by
  simp [List.getD_eq_getElem?_getD, List.getElem?_set, hi]

theorem getD_set_ne {α : Type} (l : List α) (i j : Nat) (v d : α) (hij : i ≠ j) :
    (l.set i v).getD j d = l.getD j d := by
  simp [List.getD_eq_getElem?_getD, List.getElem?_set, hij]

theorem getD_replicate {α : Type} (n i : Nat) (v d : α) (hi : i < n) :
    (List.replicate n v).getD i d = v := by
  simp [List.getD_eq_getElem?_getD, List.getElem?_replicate, hi]

theorem length_resize {α : Type} (v : List α) (n : Nat) (fill : α) :
    (resize v n fill).length = n := by
  simp [resize]; omega

theorem resize_nil {α : Type} (n : Nat) (fill : α) :
    resize ([] : List α) n fill = List.replicate n fill := by
  simp [resize]

namespace SquareMemoryHashSet

/-! ## The placement loop -/

theorem place_cons_some {h : HashCode} {x : Int} {rest : List Int} {vt vt1 : List Nat}
    (hp : place h (x :: rest) vt = some vt1) :
    vt.getD (h.call x) 0 = NOT_USER_VALUE ∧
      place h rest (vt.set (h.call x) (toULL x)) = some vt1 := by
  rw [place] at hp
  split at hp
  · cases hp
  · rename_i hs
    exact ⟨not_not.mp hs, hp⟩

/-- What a placement pass that ends with `filled == true` has done. -/
theorem place_some (h : HashCode) :
    ∀ (xs : List Int) (vt vt1 : List Nat), place h xs vt = some vt1 →
      (∀ x ∈ xs, isInt x) → (∀ x ∈ xs, h.call x < vt.length) →
      vt1.length = vt.length ∧
      (∀ x ∈ xs, vt1.getD (h.call x) 0 = toULL x) ∧
      (∀ i, (∀ x ∈ xs, h.call x ≠ i) → vt1.getD i 0 = vt.getD i 0) ∧
      (∀ x ∈ xs, vt.getD (h.call x) 0 = NOT_USER_VALUE) ∧
      xs.Pairwise (fun x y => h.call x ≠ h.call y) := by
  intro xs
  induction xs with
  | nil =>
    intro vt vt1 hp _ _
    simp only [place, Option.some.injEq] at hp
    subst hp
    simp
  | cons x rest ih =>
    intro vt vt1 hp hint hlt
    obtain ⟨hs, hrest⟩ := place_cons_some hp
    have hxlt : h.call x < vt.length := hlt x (List.mem_cons_self _ _)
    obtain ⟨hlen, hstored, hkeep, hempty, hpw⟩ :=
      ih (vt.set (h.call x) (toULL x)) vt1 hrest
        (fun y hy => hint y (List.mem_cons_of_mem _ hy))
        (fun y hy => by
          simpa using hlt y (List.mem_cons_of_mem _ hy))
    have hdiff : ∀ y ∈ rest, h.call x ≠ h.call y := by
      intro y hy heq
      have h1 := hempty y hy
      rw [← heq, getD_set_eq _ _ _ _ hxlt] at h1
      exact toULL_ne_NOT_USER_VALUE (hint x (List.mem_cons_self _ _)) h1
    refine ⟨by simpa using hlen, ?_, ?_, ?_, ?_⟩
    · intro y hy
      rcases List.mem_cons.mp hy with rfl | hy
      · rw [hkeep _ (fun z hz heq => hdiff z hz heq.symm), getD_set_eq _ _ _ _ hxlt]
      · exact hstored y hy
    · intro i hi
      rw [hkeep i (fun z hz => hi z (List.mem_cons_of_mem _ hz)),
        getD_set_ne _ _ _ _ _ (hi x (List.mem_cons_self _ _))]
    · intro y hy
      rcases List.mem_cons.mp hy with rfl | hy
      · exact hs
      · have h1 := hempty y hy
        rwa [getD_set_ne _ _ _ _ _ (hdiff y hy)] at h1
    · exact List.pairwise_cons.mpr ⟨hdiff, hpw⟩

/-- A placement pass over free slots with pairwise distinct hash values ends
with `filled == true`. -/
theorem place_isSome (h : HashCode) :
    ∀ (xs : List Int) (vt : List Nat),
      (∀ x ∈ xs, vt.getD (h.call x) 0 = NOT_USER_VALUE) →
      xs.Pairwise (fun x y => h.call x ≠ h.call y) →
      ∃ vt1, place h xs vt = some vt1 := by
  intro xs
  induction xs with
  | nil => intro vt _ _; exact ⟨vt, rfl⟩
  | cons x rest ih =>
    intro vt hempty hpw
    obtain ⟨hdiff, hpw1⟩ := List.pairwise_cons.mp hpw
    have hs := hempty x (List.mem_cons_self _ _)
    obtain ⟨vt1, h1⟩ := ih (vt.set (h.call x) (toULL x))
      (fun y hy => by
        rw [getD_set_ne _ _ _ _ _ (hdiff y hy)]
        exact hempty y (List.mem_cons_of_mem _ hy)) hpw1
    refine ⟨vt1, ?_⟩
    rw [place]
    simp only [hs, ne_eq, not_true_eq_false, if_false]
    exact h1

/-- A bucket with a repeated value makes every placement pass end with
`filled == false`. -/
theorem place_none_of_not_nodup (h : HashCode) (xs : List Int) (vt : List Nat)
    (hint : ∀ x ∈ xs, isInt x) (hlt : ∀ x ∈ xs, h.call x < vt.length)
    (hdup : ¬ xs.Nodup) : place h xs vt = none := by
  cases hp : place h xs vt with
  | none => rfl
  | some vt1 =>
    exfalso
    apply hdup
    have hpw := (place_some h xs vt vt1 hp hint hlt).2.2.2.2
    exact hpw.imp (fun hne heq => hne (by rw [heq]))

/-! ## The second-level table -/

theorem makeLoop_some (numbers : List Int) (size : Nat) :
    ∀ (n : Nat) (rs : List Nat), rs.length ≤ n →
      ∀ (s : SquareMemoryHashSet) (rs1 : List Nat), makeLoop numbers size rs = some (s, rs1) →
        (∃ r1 r2, s.hash_code = HashCode.InitializeRandomly size r1 r2) ∧
        place s.hash_code numbers (List.replicate size NOT_USER_VALUE) = some s.value_table := by
  intro n
  induction n with
  | zero =>
    intro rs hlen s rs1 hm
    have : rs = [] := List.length_eq_zero.mp (Nat.le_zero.mp hlen)
    subst this
    simp [makeLoop] at hm
  | succ n ih =>
    intro rs hlen s rs1 hm
    match rs, hlen, hm with
    | [], _, hm => simp [makeLoop] at hm
    | [_], _, hm => simp [makeLoop] at hm
    | r1 :: r2 :: rest, hlen, hm =>
      rw [makeLoop] at hm
      split at hm
      · rename_i vt hvt
        simp only [Option.some.injEq, Prod.mk.injEq] at hm
        obtain ⟨hs, _⟩ := hm
        subst hs
        exact ⟨⟨r1, r2, rfl⟩, hvt⟩
      · exact ih rest (by simp at hlen; omega) s rs1 hm

theorem Initialize_some {s s1 : SquareMemoryHashSet} {bucket : List Int} {rs rs1 : List Nat}
    (hint : ∀ x ∈ bucket, isInt x) (hi : s.Initialize bucket rs = some (s1, rs1)) :
    BuiltFrom bucket s1 := by
  unfold Initialize MakeTable at hi
  simp only at hi
  split at hi
  · rename_i hempty
    simp only [Option.some.injEq, Prod.mk.injEq] at hi
    obtain ⟨hs, _⟩ := hi
    subst hs
    have hnil : resize s.value_table ((bucket.length * bucket.length) % ULL_MOD)
        NOT_USER_VALUE = [] := List.isEmpty_iff.mp hempty
    have hlen := length_resize s.value_table ((bucket.length * bucket.length) % ULL_MOD)
      NOT_USER_VALUE
    rw [hnil] at hlen
    refine ⟨?_, ?_⟩
    · simp only [hnil]; exact hlen
    · intro hne; exact absurd hnil hne
  · rename_i hempty
    rw [length_resize] at hi
    obtain ⟨hdraw, hplace⟩ := makeLoop_some bucket _ _ rs (Nat.le_refl _) s1 rs1 hi
    have hsize : 0 < (bucket.length * bucket.length) % ULL_MOD := by
      rcases Nat.eq_zero_or_pos ((bucket.length * bucket.length) % ULL_MOD) with h0 | h0
      · exfalso
        apply hempty
        have hl := length_resize s.value_table ((bucket.length * bucket.length) % ULL_MOD)
          NOT_USER_VALUE
        rw [List.length_eq_zero.mp (hl.trans h0)]
        rfl
      · exact h0
    obtain ⟨r1, r2, hr⟩ := hdraw
    have hpow : s1.hash_code.power = (bucket.length * bucket.length) % ULL_MOD := by
      rw [hr]; rfl
    have hlen := (place_some s1.hash_code bucket _ _ hplace hint
      (fun x _ => by
        rw [List.length_replicate]
        exact hpow ▸ HashCode.call_lt _ (hpow ▸ hsize) x)).1
    rw [List.length_replicate] at hlen
    refine ⟨hlen, fun _ => ⟨⟨r1, r2, ?_⟩, ?_⟩⟩
    · rw [hlen]; exact hr
    · rw [hlen]; exact hplace

theorem Contains_of_nil {s : SquareMemoryHashSet} (h : s.value_table = []) (q : Int) :
    s.Contains q = false := by
  simp [Contains, h]

/-- A built second-level table with at least one slot answers membership in
its bucket. -/
theorem BuiltFrom.contains_iff {bucket : List Int} {s : SquareMemoryHashSet}
    (hb : BuiltFrom bucket s) (hint : ∀ x ∈ bucket, isInt x) (hne : s.value_table ≠ [])
    {q : Int} (hq : isInt q) : s.Contains q = true ↔ q ∈ bucket := by
  obtain ⟨_, hrest⟩ := hb
  obtain ⟨⟨r1, r2, hr⟩, hplace⟩ := hrest hne
  have hpow : s.hash_code.power = s.value_table.length := by
    rw [hr]; rfl
  have hpos : 0 < s.value_table.length := List.length_pos.mpr hne
  have hlt : ∀ x : Int, s.hash_code.call x < s.value_table.length := fun x =>
    hpow ▸ HashCode.call_lt _ (hpow ▸ hpos) x
  obtain ⟨_, hstored, hkeep, _, _⟩ := place_some s.hash_code bucket _ _ hplace hint
    (fun x _ => by rw [List.length_replicate]; exact hlt x)
  have hEmpty : s.value_table.isEmpty = false := by
    cases hv : s.value_table with
    | nil => exact absurd hv hne
    | cons _ _ => rfl
  unfold Contains
  rw [hEmpty]
  simp only [Bool.false_eq_true, if_false, beq_iff_eq]
  constructor
  · intro heq
    by_contra hnot
    by_cases hex : ∃ y ∈ bucket, s.hash_code.call y = s.hash_code.call q
    · obtain ⟨y, hy, hyq⟩ := hex
      have h1 := hstored y hy
      rw [hyq, heq] at h1
      have := toULL_injective hq (hint y hy) h1
      exact hnot (this ▸ hy)
    · have h1 := hkeep (s.hash_code.call q) (fun y hy heq1 => hex ⟨y, hy, heq1⟩)
      rw [getD_replicate _ _ _ _ (hlt q), heq] at h1
      exact toULL_ne_NOT_USER_VALUE hq h1
  · intro hmem
    exact hstored q hmem

end SquareMemoryHashSet

namespace FixedSet

/-! ## The top-level table -/

theorem length_pushBack (cells : List (List Int)) (j : Nat) (x : Int) :
    (pushBack cells j x).length = cells.length := by
  simp [pushBack]

theorem getD_pushBack (cells : List (List Int)) (j i : Nat) (x : Int) (hj : j < cells.length) :
    (pushBack cells j x).getD i [] =
      if j = i then cells.getD i [] ++ [x] else cells.getD i [] := by
  unfold pushBack
  by_cases hji : j = i
  · subst hji
    rw [getD_set_eq _ _ _ _ hj, if_pos rfl]
  · rw [getD_set_ne _ _ _ _ _ hji, if_neg hji]

theorem distribute_spec (h : HashCode) :
    ∀ (xs : List Int) (cells : List (List Int)), (∀ x ∈ xs, h.call x < cells.length) →
      (distribute h xs cells).length = cells.length ∧
      ∀ i, (distribute h xs cells).getD i [] = cells.getD i [] ++ bucket h xs i := by
  intro xs
  induction xs with
  | nil => intro cells _; simp [distribute, bucket]
  | cons x rest ih =>
    intro cells hlt
    have hx := hlt x (List.mem_cons_self _ _)
    obtain ⟨hlen, hget⟩ := ih (pushBack cells (h.call x) x)
      (fun y hy => by rw [length_pushBack]; exact hlt y (List.mem_cons_of_mem _ hy))
    refine ⟨by rw [distribute, hlen, length_pushBack], fun i => ?_⟩
    rw [distribute, hget i, getD_pushBack _ _ _ _ hx]
    unfold bucket
    by_cases hxi : h.call x = i
    · simp [hxi, List.filter_cons]
    · simp [hxi, List.filter_cons]

theorem distribute_eq_map_bucket (h : HashCode) (numbers : List Int) (n : Nat)
    (hlt : ∀ x ∈ numbers, h.call x < n) :
    distribute h numbers (List.replicate n []) = (List.range n).map (bucket h numbers) := by
  obtain ⟨hlen, hget⟩ := distribute_spec h numbers (List.replicate n [])
    (fun x hx => by rw [List.length_replicate]; exact hlt x hx)
  rw [List.length_replicate] at hlen
  apply List.ext_getElem
  · simp [hlen]
  · intro i h1 h2
    have hi : i < n := by rw [hlen] at h1; exact h1
    have := hget i
    rw [getD_replicate _ _ _ _ hi, List.nil_append] at this
    rw [List.getD_eq_getElem _ _ h1] at this
    simp [this]

theorem createLoop_some (numbers : List Int) (size : Nat) :
    ∀ (n : Nat) (rs : List Nat), rs.length ≤ n →
      ∀ (h : HashCode) (cells : List (List Int)) (rs1 : List Nat),
        createLoop numbers size rs = some (h, cells, rs1) →
        (∃ r1 r2, h = HashCode.InitializeRandomly size r1 r2) ∧
        cells = distribute h numbers (List.replicate numbers.length []) ∧
        secondLayerPower cells < MEMORY_COEFF * size := by
  intro n
  induction n with
  | zero =>
    intro rs hlen h cells rs1 hm
    have : rs = [] := List.length_eq_zero.mp (Nat.le_zero.mp hlen)
    subst this
    simp [createLoop] at hm
  | succ n ih =>
    intro rs hlen h cells rs1 hm
    match rs, hlen, hm with
    | [], _, hm => simp [createLoop] at hm
    | [_], _, hm => simp [createLoop] at hm
    | r1 :: r2 :: rest, hlen, hm =>
      rw [createLoop] at hm
      split at hm
      · rename_i hacc
        simp only [Option.some.injEq, Prod.mk.injEq] at hm
        obtain ⟨hh, hc, _⟩ := hm
        subst hh
        subst hc
        exact ⟨⟨r1, r2, rfl⟩, rfl, hacc⟩
      · exact ih rest (by simp at hlen; omega) h cells rs1 hm

theorem buildLoop_some (h : HashCode) (cells : List (List Int))
    (hint : ∀ i, ∀ x ∈ cells.getD i [], isInt x) :
    ∀ (xs : List Int) (table : List SquareMemoryHashSet) (rs : List Nat)
      (table1 : List SquareMemoryHashSet) (rs1 : List Nat),
      buildLoop h cells xs table rs = some (table1, rs1) →
      (∀ x ∈ xs, h.call x < table.length) →
      table1.length = table.length ∧
      ∀ i, ((∃ x ∈ xs, h.call x = i) →
          SquareMemoryHashSet.BuiltFrom (cells.getD i [])
            (table1.getD i SquareMemoryHashSet.fresh)) ∧
        ((∀ x ∈ xs, h.call x ≠ i) →
          table1.getD i SquareMemoryHashSet.fresh = table.getD i SquareMemoryHashSet.fresh) := by
  intro xs
  induction xs with
  | nil =>
    intro table rs table1 rs1 hb _
    simp only [buildLoop, Option.some.injEq, Prod.mk.injEq] at hb
    obtain ⟨ht, _⟩ := hb
    subst ht
    simp
  | cons x rest ih =>
    intro table rs table1 rs1 hb hlt
    have hx := hlt x (List.mem_cons_self _ _)
    rw [buildLoop] at hb
    split at hb
    · cases hb
    · rename_i s rs2 hinit
      have hbuilt := SquareMemoryHashSet.Initialize_some (hint (h.call x)) hinit
      obtain ⟨hlen, hall⟩ := ih (table.set (h.call x) s) rs2 table1 rs1 hb
        (fun y hy => by rw [List.length_set]; exact hlt y (List.mem_cons_of_mem _ hy))
      refine ⟨by rw [hlen, List.length_set], fun i => ⟨?_, ?_⟩⟩
      · intro hex
        by_cases hr : ∃ y ∈ rest, h.call y = i
        · exact (hall i).1 hr
        · have hxi : h.call x = i := by
            obtain ⟨y, hy, hyi⟩ := hex
            rcases List.mem_cons.mp hy with rfl | hy
            · exact hyi
            · exact absurd ⟨y, hy, hyi⟩ hr
          rw [(hall i).2 (fun y hy hyi => hr ⟨y, hy, hyi⟩), ← hxi,
            getD_set_eq _ _ _ _ hx]
          exact hbuilt
      · intro hno
        rw [(hall i).2 (fun y hy => hno y (List.mem_cons_of_mem _ hy)),
          getD_set_ne _ _ _ _ _ (hno x (List.mem_cons_self _ _))]

theorem bucket_subset (h : HashCode) (numbers : List Int) (i : Nat) :
    ∀ x ∈ bucket h numbers i, x ∈ numbers := fun _ hx => (List.mem_filter.mp hx).1

theorem mem_bucket {h : HashCode} {numbers : List Int} {i : Nat} {x : Int} :
    x ∈ bucket h numbers i ↔ x ∈ numbers ∧ h.call x = i := by
  simp [bucket, List.mem_filter]

theorem build_nil (rs : List Nat) : build [] rs = some (fresh, rs) := rfl

/-- A completed build from a non-empty input leaves the object in the state
`BuiltFrom`. -/
theorem build_some {numbers : List Int} {rs rs1 : List Nat} {fs : FixedSet}
    (hne : numbers ≠ []) (hint : ∀ x ∈ numbers, isInt x)
    (hb : build numbers rs = some (fs, rs1)) : BuiltFrom numbers fs := by
  have hpos : 0 < numbers.length := List.length_pos.mpr hne
  unfold build Initialize MakeTable at hb
  simp only [fresh, resize_nil, List.length_replicate] at hb
  split at hb
  · rename_i hempty
    have := List.isEmpty_iff.mp hempty
    have hl := congrArg List.length this
    rw [List.length_replicate, List.length_nil] at hl
    omega
  · split at hb
    · cases hb
    · rename_i h cells rs2 hcreate
      obtain ⟨⟨r1, r2, hr⟩, hcells, hacc⟩ :=
        createLoop_some numbers _ _ rs (Nat.le_refl _) h cells rs2 hcreate
      have hpow : h.power = numbers.length := by rw [hr]; rfl
      have hlt : ∀ x : Int, h.call x < numbers.length := fun x =>
        hpow ▸ HashCode.call_lt _ (hpow ▸ hpos) x
      have hmap := distribute_eq_map_bucket h numbers numbers.length (fun x _ => hlt x)
      rw [hmap] at hcells
      have hcellget : ∀ i, cells.getD i [] = bucket h numbers i := by
        intro i
        rw [hcells]
        by_cases hi : i < numbers.length
        · simp [List.getD_eq_getElem?_getD, hi]
        · have : bucket h numbers i = [] := by
            apply List.eq_nil_iff_forall_not_mem.mpr
            intro x hx
            exact hi ((mem_bucket.mp hx).2 ▸ hlt x)
          rw [List.getD_eq_getElem?_getD, List.getElem?_eq_none (by simp; omega), this]
          rfl
      split at hb
      · cases hb
      · rename_i table rs3 hbuild
        simp only [Option.some.injEq, Prod.mk.injEq] at hb
        obtain ⟨hfs, _⟩ := hb
        subst hfs
        obtain ⟨hlen, hall⟩ := buildLoop_some h cells
          (fun i x hx => by
            rw [hcellget i] at hx
            exact hint x (bucket_subset h numbers i x hx))
          numbers _ rs2 table rs3 hbuild
          (fun x _ => by rw [List.length_replicate]; exact hlt x)
        rw [List.length_replicate] at hlen
        refine ⟨hlen, ⟨r1, r2, hr⟩, ?_, fun i => ?_⟩
        · rw [← hcells]; exact hacc
        · by_cases hex : ∃ x ∈ numbers, h.call x = i
          · have := (hall i).1 hex
            rwa [hcellget i] at this
          · have hnil : bucket h numbers i = [] := by
              apply List.eq_nil_iff_forall_not_mem.mpr
              intro x hx
              exact hex ⟨x, (mem_bucket.mp hx).1, (mem_bucket.mp hx).2⟩
            have hkeep := (hall i).2 (fun x hx hxi => hex ⟨x, hx, hxi⟩)
            have hfresh : (List.replicate numbers.length SquareMemoryHashSet.fresh).getD i
                SquareMemoryHashSet.fresh = SquareMemoryHashSet.fresh := by
              simp [List.getD_eq_getElem?_getD, List.getElem?_replicate]
              split <;> rfl
            show SquareMemoryHashSet.BuiltFrom (bucket h numbers i)
              (table.getD i SquareMemoryHashSet.fresh)
            rw [hkeep, hfresh, hnil]
            refine ⟨rfl, fun hne => absurd rfl hne⟩

end FixedSet

/-! ## Sizes of buckets of distinct `int` values -/

theorem toFinset_subset_Icc {xs : List Int} (hint : ∀ x ∈ xs, isInt x) :
    xs.toFinset ⊆ Finset.Icc (-2147483648 : Int) 2147483647 := by
  intro x hx
  have := hint x (List.mem_toFinset.mp hx)
  exact Finset.mem_Icc.mpr this

theorem card_Icc_int : (Finset.Icc (-2147483648 : Int) 2147483647).card = 4294967296 := by
  rw [Int.card_Icc]; rfl

/-- A vector of pairwise distinct `int` values has at most `2 ^ 32` elements. -/
theorem length_le_of_nodup {xs : List Int} (hnd : xs.Nodup) (hint : ∀ x ∈ xs, isInt x) :
    xs.length ≤ 4294967296 := by
  rw [← List.toFinset_card_of_nodup hnd, ← card_Icc_int]
  exact Finset.card_le_card (toFinset_subset_Icc hint)

/-- A vector of `2 ^ 32` pairwise distinct `int` values holds every `int`. -/
theorem mem_of_nodup_of_length {xs : List Int} (hnd : xs.Nodup) (hint : ∀ x ∈ xs, isInt x)
    (hlen : xs.length = 4294967296) {y : Int} (hy : isInt y) : y ∈ xs := by
  have heq : xs.toFinset = Finset.Icc (-2147483648 : Int) 2147483647 :=
    Finset.eq_of_subset_of_card_le (toFinset_subset_Icc hint)
      (by rw [card_Icc_int, List.toFinset_card_of_nodup hnd, hlen])
  have : y ∈ xs.toFinset := by rw [heq]; exact Finset.mem_Icc.mpr hy
  exact List.mem_toFinset.mp this

theorem HashCode.coeff_bounds (m r1 r2 : Nat) :
    1 ≤ (HashCode.InitializeRandomly m r1 r2).a_coeff ∧
    (HashCode.InitializeRandomly m r1 r2).a_coeff ≤ 2147483646 ∧
    1 ≤ (HashCode.InitializeRandomly m r1 r2).b_coeff ∧
    (HashCode.InitializeRandomly m r1 r2).b_coeff ≤ 2147483646 := by
  simp only [HashCode.InitializeRandomly, MAX_HASH_COEFF, ULL_MOD]
  omega

/-- For a key that is not negative and coefficients of at most 31 bits the
sum `a * x + b` does not reach `2 ^ 64`. -/
theorem HashCode.call_of_nonneg (h : HashCode) (ha : h.a_coeff ≤ 2147483647)
    (hb : h.b_coeff ≤ 2147483647) {x : Int} (h0 : 0 ≤ x) (hx : isInt x) :
    h.call x = ((h.a_coeff * x.toNat + h.b_coeff) % PRIME) % h.power := by
  unfold HashCode.call
  rw [toULL_of_nonneg h0 hx]
  have hxn : x.toNat ≤ 2147483647 := by unfold isInt at hx; omega
  have hmul : h.a_coeff * x.toNat ≤ 2147483647 * 2147483647 := Nat.mul_le_mul ha hxn
  have hlt : h.a_coeff * x.toNat + h.b_coeff < ULL_MOD := by
    unfold ULL_MOD
    have : (2147483647 : Nat) * 2147483647 + 2147483647 < 2 ^ 64 := by norm_num
    omega
  rw [Nat.mod_eq_of_lt hlt]

/-- With range `2 ^ 32` a drawn hash function separates the keys `0` and `1`. -/
theorem HashCode.call_zero_ne_call_one (r1 r2 : Nat) :
    (HashCode.InitializeRandomly 4294967296 r1 r2).call 0 ≠
      (HashCode.InitializeRandomly 4294967296 r1 r2).call 1 := by
  obtain ⟨ha1, ha2, hb1, hb2⟩ := HashCode.coeff_bounds 4294967296 r1 r2
  rw [HashCode.call_of_nonneg _ (by omega) (by omega) (le_refl 0) (by unfold isInt; omega),
    HashCode.call_of_nonneg _ (by omega) (by omega) (by omega : (0 : Int) ≤ 1)
      (by unfold isInt; omega),
    HashCode.power_InitializeRandomly]
  generalize (HashCode.InitializeRandomly 4294967296 r1 r2).a_coeff = a at *
  generalize (HashCode.InitializeRandomly 4294967296 r1 r2).b_coeff = b at *
  have e0 : (0 : Int).toNat = 0 := rfl
  have e1 : (1 : Int).toNat = 1 := rfl
  rw [e0, e1, Nat.mul_zero, Nat.mul_one, Nat.zero_add]
  unfold PRIME
  rw [Nat.mod_eq_of_lt (by omega : b < 4294967311),
    Nat.mod_eq_of_lt (by omega : a + b < 4294967311),
    Nat.mod_eq_of_lt (by omega : b < 4294967296),
    Nat.mod_eq_of_lt (by omega : a + b < 4294967296)]
  omega

namespace FixedSet

theorem bucket_nodup {h : HashCode} {numbers : List Int} (hnd : numbers.Nodup) (i : Nat) :
    (bucket h numbers i).Nodup := hnd.filter _

theorem length_bucket_le (h : HashCode) (numbers : List Int) (i : Nat) :
    (bucket h numbers i).length ≤ numbers.length := List.length_filter_le _ _

/-- Under a drawn top-level function no bucket of pairwise distinct `int`
values reaches `2 ^ 32` elements, so the `size_t` product of its size with
itself is exact. -/
theorem length_bucket_lt {numbers : List Int} (hnd : numbers.Nodup)
    (hint : ∀ x ∈ numbers, isInt x) (r1 r2 : Nat) (i : Nat) :
    (bucket (HashCode.InitializeRandomly numbers.length r1 r2) numbers i).length
      < 4294967296 := by
  have h1 := length_bucket_le (HashCode.InitializeRandomly numbers.length r1 r2) numbers i
  have h2 := length_le_of_nodup hnd hint
  by_contra hge
  have hk : (bucket (HashCode.InitializeRandomly numbers.length r1 r2) numbers i).length
      = numbers.length := by omega
  have hn : numbers.length = 4294967296 := by omega
  have hall := List.filter_length_eq_length.mp hk
  have m0 := hall 0 (mem_of_nodup_of_length hnd hint hn (by unfold isInt; omega))
  have m1 := hall 1 (mem_of_nodup_of_length hnd hint hn (by unfold isInt; omega))
  simp only [decide_eq_true_eq] at m0 m1
  rw [hn] at m0 m1
  exact HashCode.call_zero_ne_call_one r1 r2 (m0.trans m1.symm)

theorem sq_mod_of_lt {k : Nat} (hk : k < 4294967296) : (k * k) % ULL_MOD = k * k := by
  apply Nat.mod_eq_of_lt
  unfold ULL_MOD
  have : k ≤ 4294967295 := by omega
  calc k * k ≤ 4294967295 * 4294967295 := Nat.mul_le_mul this this
    _ < 2 ^ 64 := by norm_num

/-! ## Queries on a built set -/

theorem Contains_fresh (q : Int) : fresh.Contains q = false := rfl

/-- A built set answers `true` only for numbers of its input. -/
theorem BuiltFrom.mem_of_contains {numbers : List Int} {fs : FixedSet}
    (hB : BuiltFrom numbers fs) (hint : ∀ x ∈ numbers, isInt x) {q : Int} (hq : isInt q)
    (hc : fs.Contains q = true) : q ∈ numbers := by
  unfold Contains at hc
  split at hc
  · cases hc
  · have hs := hB.2.2.2 (fs.hash_code.call q)
    have hne : (fs.table.getD (fs.hash_code.call q) SquareMemoryHashSet.fresh).value_table
        ≠ [] := by
      intro hnil
      rw [SquareMemoryHashSet.Contains_of_nil hnil] at hc
      cases hc
    have := (hs.contains_iff (fun x hx => hint x (bucket_subset _ _ _ x hx)) hne hq).mp hc
    exact bucket_subset _ _ _ q this

/-- A set built from pairwise distinct numbers answers `true` for each of them. -/
theorem BuiltFrom.contains_of_mem {numbers : List Int} {fs : FixedSet}
    (hB : BuiltFrom numbers fs) (hint : ∀ x ∈ numbers, isInt x) (hnd : numbers.Nodup)
    {q : Int} (hq : q ∈ numbers) : fs.Contains q = true := by
  obtain ⟨hlen, ⟨r1, r2, hr⟩, _, hall⟩ := hB
  have hpos : 0 < numbers.length := List.length_pos_of_mem hq
  have hEmpty : fs.table.isEmpty = false := by
    cases ht : fs.table with
    | nil => rw [ht] at hlen; simp at hlen; omega
    | cons _ _ => rfl
  unfold Contains
  rw [hEmpty]
  simp only [Bool.false_eq_true, if_false]
  have hs := hall (fs.hash_code.call q)
  have hmem : q ∈ bucket fs.hash_code numbers (fs.hash_code.call q) := mem_bucket.mpr ⟨hq, rfl⟩
  have hk1 : 0 < (bucket fs.hash_code numbers (fs.hash_code.call q)).length :=
    List.length_pos_of_mem hmem
  have hk2 : (bucket fs.hash_code numbers (fs.hash_code.call q)).length < 4294967296 := by
    rw [hr]; exact length_bucket_lt hnd hint r1 r2 _
  have hne : (fs.table.getD (fs.hash_code.call q) SquareMemoryHashSet.fresh).value_table
      ≠ [] := by
    intro hnil
    have h1 := hs.1
    rw [hnil, sq_mod_of_lt hk2, List.length_nil] at h1
    have := Nat.mul_pos hk1 hk1
    omega
  exact (hs.contains_iff (fun x hx => hint x (bucket_subset _ _ _ x hx)) hne
    (hint q hq)).mpr hmem

/-- A completed build from pairwise distinct numbers answers membership in
the input. -/
theorem contains_iff_of_build {numbers : List Int} {rs rs1 : List Nat} {fs : FixedSet}
    (hint : ∀ x ∈ numbers, isInt x) (hnd : numbers.Nodup)
    (hb : build numbers rs = some (fs, rs1)) {q : Int} (hq : isInt q) :
    fs.Contains q = true ↔ q ∈ numbers := by
  cases numbers with
  | nil =>
    rw [build_nil] at hb
    simp only [Option.some.injEq, Prod.mk.injEq] at hb
    rw [← hb.1]
    simp [Contains_fresh]
  | cons a l =>
    have hB := build_some (List.cons_ne_nil a l) hint hb
    exact ⟨hB.mem_of_contains hint hq, hB.contains_of_mem hint hnd⟩

end FixedSet

/-! ## The memory bound -/

theorem SquareMemoryHashSet.BuiltFrom.nodup_of_ne_nil {bucket : List Int}
    {s : SquareMemoryHashSet} (hb : BuiltFrom bucket s) (hint : ∀ x ∈ bucket, isInt x)
    (hne : s.value_table ≠ []) : bucket.Nodup := by
  obtain ⟨_, hrest⟩ := hb
  obtain ⟨⟨r1, r2, hr⟩, hplace⟩ := hrest hne
  have hpow : s.hash_code.power = s.value_table.length := by
    rw [hr]; rfl
  have hpos : 0 < s.value_table.length := List.length_pos.mpr hne
  have hpw := (place_some s.hash_code bucket _ _ hplace hint
    (fun x _ => by
      rw [List.length_replicate]
      exact hpow ▸ HashCode.call_lt _ (hpow ▸ hpos) x)).2.2.2.2
  exact hpw.imp (fun hne heq => hne (by rw [heq]))

/-- A built second-level table that has slots was built from fewer than
`2 ^ 32` numbers, and has exactly the square of that many slots. -/
theorem SquareMemoryHashSet.BuiltFrom.length_of_ne_nil {bucket : List Int}
    {s : SquareMemoryHashSet} (hb : BuiltFrom bucket s) (hint : ∀ x ∈ bucket, isInt x)
    (hne : s.value_table ≠ []) :
    bucket.length < 4294967296 ∧ s.value_table.length = bucket.length * bucket.length := by
  have hnd := hb.nodup_of_ne_nil hint hne
  have hle := length_le_of_nodup hnd hint
  have hlen := hb.1
  have hpos : 0 < s.value_table.length := List.length_pos.mpr hne
  have hlt : bucket.length < 4294967296 := by
    by_contra hge
    have : bucket.length = 4294967296 := by omega
    rw [this] at hlen
    have h0 : (4294967296 * 4294967296) % ULL_MOD = 0 := by unfold ULL_MOD; norm_num
    omega
  exact ⟨hlt, by rw [hlen, FixedSet.sq_mod_of_lt hlt]⟩

namespace FixedSet

theorem foldl_secondLayerPower (cells : List (List Int)) :
    ∀ acc, acc < ULL_MOD →
      cells.foldl (fun acc c => (acc + (c.length * c.length) % ULL_MOD) % ULL_MOD) acc =
        (acc + (cells.map (fun c => (c.length * c.length) % ULL_MOD)).sum) % ULL_MOD := by
  induction cells with
  | nil =>
    intro acc hacc
    simp [Nat.mod_eq_of_lt hacc]
  | cons c cs ih =>
    intro acc hacc
    rw [List.foldl_cons, ih _ (Nat.mod_lt _ (by unfold ULL_MOD; norm_num)), List.map_cons,
      List.sum_cons]
    simp only [ULL_MOD]
    omega

theorem secondLayerPower_eq (cells : List (List Int)) :
    secondLayerPower cells =
      (cells.map (fun c => (c.length * c.length) % ULL_MOD)).sum % ULL_MOD := by
  unfold secondLayerPower
  rw [foldl_secondLayerPower cells 0 (by unfold ULL_MOD; norm_num), Nat.zero_add]

theorem sum_map_range (f : Nat → Nat) (n : Nat) :
    ((List.range n).map f).sum = Finset.sum (Finset.range n) f := by
  induction n with
  | zero => simp
  | succ n ih => rw [List.range_succ, List.map_append, List.sum_append, ih,
      Finset.sum_range_succ]; simp

theorem map_eq_map_range {α β : Type} (l : List α) (d : α) (f : α → β) :
    l.map f = (List.range l.length).map (fun i => f (l.getD i d)) := by
  apply List.ext_getElem
  · simp
  · intro i h1 h2
    have hi : i < l.length := by simpa using h1
    simp [List.getD_eq_getElem?_getD, List.getElem?_eq_getElem hi]

/-- The slots of all second-level tables of a built set are fewer than
`2 ^ 64`: the tables that have slots hold pairwise distinct `int` values, at
most `2 ^ 32` in all and fewer than `2 ^ 32` each. -/
theorem sum_slots_lt_of_builtFrom {numbers : List Int} {fs : FixedSet}
    (hB : BuiltFrom numbers fs) (hint : ∀ x ∈ numbers, isInt x) :
    Finset.sum (Finset.range numbers.length)
      (fun i => (fs.table.getD i SquareMemoryHashSet.fresh).value_table.length) < ULL_MOD := by
  classical
  obtain ⟨_, _, _, hall⟩ := hB
  let t : Nat → Nat := fun i => (fs.table.getD i SquareMemoryHashSet.fresh).value_table.length
  let D : Nat → Finset Int := fun i =>
    if t i = 0 then ∅ else numbers.toFinset.filter (fun x => fs.hash_code.call x = i)
  have hbint : ∀ i, ∀ x ∈ bucket fs.hash_code numbers i, isInt x :=
    fun i x hx => hint x (bucket_subset _ _ _ x hx)
  have hne_of : ∀ i, t i ≠ 0 →
      (fs.table.getD i SquareMemoryHashSet.fresh).value_table ≠ [] := by
    intro i hti hnil
    apply hti
    show (fs.table.getD i SquareMemoryHashSet.fresh).value_table.length = 0
    rw [hnil]; rfl
  have hle : ∀ i, t i ≤ 4294967295 * (D i).card := by
    intro i
    by_cases hti : t i = 0
    · rw [hti]; exact Nat.zero_le _
    · have hne := hne_of i hti
      obtain ⟨hlt, hsq⟩ := (hall i).length_of_ne_nil (hbint i) hne
      have hnd := (hall i).nodup_of_ne_nil (hbint i) hne
      have hcard : (D i).card = (bucket fs.hash_code numbers i).length := by
        show (if t i = 0 then (∅ : Finset Int)
          else numbers.toFinset.filter (fun x => fs.hash_code.call x = i)).card = _
        rw [if_neg hti, ← List.toFinset_card_of_nodup hnd]
        congr 1
        ext x
        simp [bucket, List.mem_filter]
      show (fs.table.getD i SquareMemoryHashSet.fresh).value_table.length ≤ _
      rw [hsq, hcard]
      exact Nat.mul_le_mul_right _ (by omega)
  have hdisj : ∀ i ∈ Finset.range numbers.length, ∀ j ∈ Finset.range numbers.length,
      i ≠ j → Disjoint (D i) (D j) := by
    intro i _ j _ hij
    rw [Finset.disjoint_left]
    intro x hxi hxj
    have hi : fs.hash_code.call x = i := by
      by_cases hti : t i = 0
      · simp [D, hti] at hxi
      · simp [D, hti] at hxi; exact hxi.2
    have hj : fs.hash_code.call x = j := by
      by_cases htj : t j = 0
      · simp [D, htj] at hxj
      · simp [D, htj] at hxj; exact hxj.2
    exact hij (hi.symm.trans hj)
  have hsub : (Finset.range numbers.length).biUnion D ⊆ numbers.toFinset := by
    intro x hx
    obtain ⟨i, _, hxi⟩ := Finset.mem_biUnion.mp hx
    by_cases hti : t i = 0
    · simp [D, hti] at hxi
    · simp [D, hti] at hxi
      exact List.mem_toFinset.mpr hxi.1
  have hcardsum : Finset.sum (Finset.range numbers.length) (fun i => (D i).card)
      ≤ 4294967296 := by
    rw [← Finset.card_biUnion hdisj, ← card_Icc_int]
    exact Finset.card_le_card (hsub.trans (toFinset_subset_Icc hint))
  have hsum : Finset.sum (Finset.range numbers.length) t
      ≤ 4294967295 * Finset.sum (Finset.range numbers.length) (fun i => (D i).card) := by
    rw [Finset.mul_sum]
    exact Finset.sum_le_sum (fun i _ => hle i)
  show Finset.sum (Finset.range numbers.length) t < ULL_MOD
  have h3 : 4294967295 * Finset.sum (Finset.range numbers.length) (fun i => (D i).card)
      ≤ 4294967295 * 4294967296 := Nat.mul_le_mul_left _ hcardsum
  unfold ULL_MOD
  have : (4294967295 : Nat) * 4294967296 < 2 ^ 64 := by norm_num
  omega

/-- In a built set the slots of all second-level tables are fewer than
`MEMORY_COEFF` times the number of input numbers. -/
theorem BuiltFrom.sum_slots_lt {numbers : List Int} {fs : FixedSet}
    (hB : BuiltFrom numbers fs) (hint : ∀ x ∈ numbers, isInt x) :
    (fs.table.map (fun s => s.value_table.length)).sum < MEMORY_COEFF * numbers.length := by
  have hlt := sum_slots_lt_of_builtFrom hB hint
  obtain ⟨hlen, _, hacc, hall⟩ := hB
  rw [map_eq_map_range fs.table SquareMemoryHashSet.fresh, hlen, sum_map_range]
  rw [secondLayerPower_eq, List.map_map, sum_map_range] at hacc
  have heq : Finset.sum (Finset.range numbers.length)
      ((fun c : List Int => (c.length * c.length) % ULL_MOD) ∘ bucket fs.hash_code numbers) =
      Finset.sum (Finset.range numbers.length)
        (fun i => (fs.table.getD i SquareMemoryHashSet.fresh).value_table.length) :=
    Finset.sum_congr rfl (fun i _ => ((hall i).1).symm)
  rw [heq, Nat.mod_eq_of_lt hlt] at hacc
  exact hacc

end FixedSet

/-! ## Inputs with a repeated value -/

theorem SquareMemoryHashSet.makeLoop_none_of_not_nodup {bucket : List Int} {size : Nat}
    (hint : ∀ x ∈ bucket, isInt x) (hsize : 0 < size) (hdup : ¬ bucket.Nodup)
    (rs : List Nat) : makeLoop bucket size rs = none := by
  cases hm : makeLoop bucket size rs with
  | none => rfl
  | some p =>
    exfalso
    obtain ⟨s, rs1⟩ := p
    obtain ⟨⟨r1, r2, hr⟩, hplace⟩ := makeLoop_some bucket size _ rs (Nat.le_refl _) s rs1 hm
    have hpow : s.hash_code.power = size := by rw [hr]; rfl
    have hnone := place_none_of_not_nodup s.hash_code bucket
      (List.replicate size NOT_USER_VALUE) hint
      (fun x _ => by
        rw [List.length_replicate]
        exact hpow ▸ HashCode.call_lt _ (hpow ▸ hsize) x) hdup
    rw [hnone] at hplace
    cases hplace

/-- `Initialize` on a bucket of fewer than `2 ^ 32` values, one of them
repeated, does not return. -/
theorem SquareMemoryHashSet.Initialize_none_of_not_nodup (s : SquareMemoryHashSet)
    {bucket : List Int} (hint : ∀ x ∈ bucket, isInt x) (hlen : bucket.length < 4294967296)
    (hdup : ¬ bucket.Nodup) (rs : List Nat) : s.Initialize bucket rs = none := by
  have hk : 0 < bucket.length := by
    cases bucket with
    | nil => exact absurd List.nodup_nil hdup
    | cons _ _ => simp
  have hsize : 0 < (bucket.length * bucket.length) % ULL_MOD := by
    rw [FixedSet.sq_mod_of_lt hlen]
    exact Nat.mul_pos hk hk
  unfold Initialize MakeTable
  simp only
  have hne : (resize s.value_table ((bucket.length * bucket.length) % ULL_MOD)
      NOT_USER_VALUE).isEmpty = false := by
    have hl := length_resize s.value_table ((bucket.length * bucket.length) % ULL_MOD)
      NOT_USER_VALUE
    cases hr : resize s.value_table ((bucket.length * bucket.length) % ULL_MOD)
        NOT_USER_VALUE with
    | nil => rw [hr] at hl; simp at hl; omega
    | cons _ _ => rfl
  rw [hne]
  simp only [Bool.false_eq_true, if_false]
  rw [length_resize]
  exact makeLoop_none_of_not_nodup hint hsize hdup rs

namespace FixedSet

theorem buildLoop_none (h : HashCode) (cells : List (List Int)) :
    ∀ (xs : List Int) (table : List SquareMemoryHashSet) (rs : List Nat),
      (∃ x ∈ xs, ∀ (s : SquareMemoryHashSet) (rs1 : List Nat),
        s.Initialize (cells.getD (h.call x) []) rs1 = none) →
      buildLoop h cells xs table rs = none := by
  intro xs
  induction xs with
  | nil => intro _ _ hex; obtain ⟨x, hx, _⟩ := hex; cases hx
  | cons x rest ih =>
    intro table rs hex
    rw [buildLoop]
    split
    · rfl
    · rename_i s rs2 hinit
      obtain ⟨y, hy, hnone⟩ := hex
      rcases List.mem_cons.mp hy with rfl | hy
      · rw [hnone] at hinit; cases hinit
      · exact ih _ _ ⟨y, hy, hnone⟩

theorem not_nodup_bucket {numbers : List Int} (hdup : ¬ numbers.Nodup) (h : HashCode) :
    ∃ v ∈ numbers, ¬ (bucket h numbers (h.call v)).Nodup := by
  rw [List.nodup_iff_count_le_one] at hdup
  push_neg at hdup
  obtain ⟨v, hv⟩ := hdup
  have hmem : v ∈ numbers := List.count_pos_iff.mp (by omega)
  refine ⟨v, hmem, fun hnd => ?_⟩
  have := List.nodup_iff_count_le_one.mp hnd v
  unfold bucket at this
  rw [List.count_filter (by simp)] at this
  omega

/-- A build from fewer than `2 ^ 32` values, one of them repeated, does not
complete, whatever the draws are. -/
theorem build_eq_none_of_not_nodup {numbers : List Int} (hint : ∀ x ∈ numbers, isInt x)
    (hlen : numbers.length < 4294967296) (hdup : ¬ numbers.Nodup) (rs : List Nat) :
    build numbers rs = none := by
  have hne : numbers ≠ [] := fun h => hdup (h ▸ List.nodup_nil)
  have hpos : 0 < numbers.length := List.length_pos.mpr hne
  cases hb : build numbers rs with
  | none => rfl
  | some p =>
    exfalso
    unfold build Initialize MakeTable at hb
    simp only [fresh, resize_nil, List.length_replicate] at hb
    split at hb
    · rename_i hempty
      have := List.isEmpty_iff.mp hempty
      have hl := congrArg List.length this
      rw [List.length_replicate, List.length_nil] at hl
      omega
    · split at hb
      · cases hb
      · rename_i h cells rs2 hcreate
        obtain ⟨⟨r1, r2, hr⟩, hcells, _⟩ :=
          createLoop_some numbers _ _ rs (Nat.le_refl _) h cells rs2 hcreate
        have hpow : h.power = numbers.length := by rw [hr]; rfl
        have hlt : ∀ x : Int, h.call x < numbers.length := fun x =>
          hpow ▸ HashCode.call_lt _ (hpow ▸ hpos) x
        have hmap := distribute_eq_map_bucket h numbers numbers.length (fun x _ => hlt x)
        rw [hmap] at hcells
        obtain ⟨v, hv, hvdup⟩ := not_nodup_bucket hdup h
        have hcellv : cells.getD (h.call v) [] = bucket h numbers (h.call v) := by
          rw [hcells]
          simp [List.getD_eq_getElem?_getD, hlt v]
        have hnone := buildLoop_none h cells numbers
          (List.replicate numbers.length SquareMemoryHashSet.fresh) rs2
          ⟨v, hv, fun s rs1 => by
            rw [hcellv]
            exact SquareMemoryHashSet.Initialize_none_of_not_nodup s
              (fun x hx => hint x (bucket_subset _ _ _ x hx))
              (lt_of_le_of_lt (length_bucket_le _ _ _) hlen) hvdup rs1⟩
        rw [hnone] at hb
        cases hb

end FixedSet

/-! ## The modulus is prime -/

/-- The prime divisors of `PRIME - 1 = 2 * 3 ^ 2 * 5 * 131 * 364289`. -/
theorem prime_dvd_PRIME_sub_one {q : Nat} (hq : q.Prime) (hdvd : q ∣ 4294967311 - 1) :
    q = 2 ∨ q = 3 ∨ q = 5 ∨ q = 131 ∨ q = 364289 := by
  have h131 : Nat.Prime 131 := by norm_num
  have h364289 : Nat.Prime 364289 := by norm_num
  have hfac : (4294967311 - 1 : Nat) = 2 * 3 ^ 2 * 5 * 131 * 364289 := by norm_num
  rw [hfac] at hdvd
  rcases (Nat.Prime.dvd_mul hq).mp hdvd with h | h
  · rcases (Nat.Prime.dvd_mul hq).mp h with h | h
    · rcases (Nat.Prime.dvd_mul hq).mp h with h | h
      · rcases (Nat.Prime.dvd_mul hq).mp h with h | h
        · exact Or.inl ((Nat.prime_dvd_prime_iff_eq hq Nat.prime_two).mp h)
        · exact Or.inr (Or.inl ((Nat.prime_dvd_prime_iff_eq hq Nat.prime_three).mp
            (hq.dvd_of_dvd_pow h)))
      · exact Or.inr (Or.inr (Or.inl ((Nat.prime_dvd_prime_iff_eq hq Nat.prime_five).mp h)))
    · exact Or.inr (Or.inr (Or.inr (Or.inl ((Nat.prime_dvd_prime_iff_eq hq h131).mp h))))
  · exact Or.inr (Or.inr (Or.inr (Or.inr ((Nat.prime_dvd_prime_iff_eq hq h364289).mp h))))

/-- `PRIME` is a prime number: `3` has order `PRIME - 1` modulo `PRIME`. -/
theorem prime_PRIME : Nat.Prime PRIME := by
  unfold PRIME
  apply lucas_primality 4294967311 (3 : ZMod 4294967311)
  · reduce_mod_char
  · intro q hq hdvd
    rcases prime_dvd_PRIME_sub_one hq hdvd with rfl | rfl | rfl | rfl | rfl
    · reduce_mod_char; decide
    · reduce_mod_char; decide
    · reduce_mod_char; decide
    · reduce_mod_char; decide
    · reduce_mod_char; decide

/-! ## Collisions of two keys over the drawn coefficients -/

theorem HashCode.card_drawRange : HashCode.drawRange.card = 2147483646 := by
  unfold HashCode.drawRange MAX_HASH_COEFF
  rw [Nat.card_Icc]

theorem HashCode.mem_drawRange {a : Nat} :
    a ∈ HashCode.drawRange ↔ 1 ≤ a ∧ a ≤ 2147483646 := by
  unfold HashCode.drawRange MAX_HASH_COEFF
  rw [Finset.mem_Icc]

theorem HashCode.mem_collisions (m : Nat) (x y : Int) (p : Nat × Nat) :
    p ∈ HashCode.collisions m x y ↔
      (p.1 ∈ HashCode.drawRange ∧ p.2 ∈ HashCode.drawRange) ∧
        (HashCode.mk p.1 p.2 m).call x = (HashCode.mk p.1 p.2 m).call y := by
  simp only [HashCode.collisions, Finset.mem_filter, Finset.mem_product]

theorem mem_congruentPairs (m : Nat) (q : Nat × Nat) :
    q ∈ congruentPairs m ↔
      (q.1 < PRIME ∧ q.2 < PRIME) ∧ q.1 ≠ q.2 ∧ q.1 % m = q.2 % m := by
  simp only [congruentPairs, Finset.mem_filter, Finset.mem_product, Finset.mem_range]

/-- Among the numbers below `n`, those congruent to `u` modulo `m` and
different from `u`, each counted `m` times, are at most `n - 1`. -/
theorem card_filter_mod_eq_mul_le (n u m : Nat) (hm : 0 < m) (hu : u < n) :
    ((Finset.range n).filter (fun v => v ≠ u ∧ v % m = u % m)).card * m ≤ n - 1 := by
  have hS : ((Finset.range n).filter (fun v => v ≡ u [MOD m])).card
      = n / m + if u % m < n % m then 1 else 0 := by
    rw [← Nat.count_eq_card_filter_range, Nat.count_modEq_card n hm u]
  have herase : (Finset.range n).filter (fun v => v ≠ u ∧ v % m = u % m)
      = ((Finset.range n).filter (fun v => v ≡ u [MOD m])).erase u := by
    ext v
    simp only [Finset.mem_filter, Finset.mem_range, Finset.mem_erase, Nat.ModEq]
    tauto
  have hmem : u ∈ (Finset.range n).filter (fun v => v ≡ u [MOD m]) := by
    simp only [Finset.mem_filter, Finset.mem_range]
    exact ⟨hu, Nat.ModEq.refl u⟩
  rw [herase, Finset.card_erase_of_mem hmem, hS]
  have hdm := Nat.div_add_mod n m
  have hmod := Nat.mod_lt n hm
  split
  · rename_i hlt
    simp only [Nat.add_sub_cancel]
    have : n / m * m = m * (n / m) := Nat.mul_comm _ _
    omega
  · simp only [Nat.add_zero]
    rcases Nat.eq_zero_or_pos (n / m) with h0 | hpos
    · rw [h0]; simp
    · have h1 : (n / m - 1) * m = m * (n / m) - m := by
        rw [Nat.sub_mul, Nat.one_mul, Nat.mul_comm]
      rw [h1]
      omega

/-- Modulo `PRIME`, two different keys below `PRIME` get different values
`a * x + b` when `a` is not a multiple of `PRIME`. -/
theorem linear_mod_ne {a b X Y : Nat} (ha0 : 0 < a) (ha : a < PRIME) (hX : X < PRIME)
    (hY : Y < PRIME) (hXY : X ≠ Y) : (a * X + b) % PRIME ≠ (a * Y + b) % PRIME := by
  haveI : Fact (Nat.Prime PRIME) := ⟨prime_PRIME⟩
  intro heq
  have h1 : ((a * X + b : Nat) : ZMod PRIME) = ((a * Y + b : Nat) : ZMod PRIME) :=
    (ZMod.natCast_eq_natCast_iff' _ _ _).mpr heq
  push_cast at h1
  have h2 : (a : ZMod PRIME) * ((X : ZMod PRIME) - (Y : ZMod PRIME)) = 0 := by
    linear_combination h1
  rcases mul_eq_zero.mp h2 with h3 | h3
  · have := (ZMod.natCast_zmod_eq_zero_iff_dvd a PRIME).mp h3
    have := Nat.le_of_dvd ha0 this
    omega
  · have h4 : (X : ZMod PRIME) = (Y : ZMod PRIME) := sub_eq_zero.mp h3
    have h5 := (ZMod.natCast_eq_natCast_iff' _ _ _).mp h4
    rw [Nat.mod_eq_of_lt hX, Nat.mod_eq_of_lt hY] at h5
    exact hXY h5

/-- Modulo `PRIME`, the values of `a * x + b` at two different keys determine
the coefficients `a` and `b` below `PRIME`. -/
theorem linear_mod_inj {a b c d X Y : Nat} (ha : a < PRIME) (hb : b < PRIME) (hc : c < PRIME)
    (hd : d < PRIME) (hX : X < PRIME) (hY : Y < PRIME) (hXY : X ≠ Y)
    (h1 : (a * X + b) % PRIME = (c * X + d) % PRIME)
    (h2 : (a * Y + b) % PRIME = (c * Y + d) % PRIME) : a = c ∧ b = d := by
  haveI : Fact (Nat.Prime PRIME) := ⟨prime_PRIME⟩
  have e1 : ((a * X + b : Nat) : ZMod PRIME) = ((c * X + d : Nat) : ZMod PRIME) :=
    (ZMod.natCast_eq_natCast_iff' _ _ _).mpr h1
  have e2 : ((a * Y + b : Nat) : ZMod PRIME) = ((c * Y + d : Nat) : ZMod PRIME) :=
    (ZMod.natCast_eq_natCast_iff' _ _ _).mpr h2
  push_cast at e1 e2
  have hne : (X : ZMod PRIME) - (Y : ZMod PRIME) ≠ 0 := by
    intro h3
    have h4 : (X : ZMod PRIME) = (Y : ZMod PRIME) := sub_eq_zero.mp h3
    have h5 := (ZMod.natCast_eq_natCast_iff' _ _ _).mp h4
    rw [Nat.mod_eq_of_lt hX, Nat.mod_eq_of_lt hY] at h5
    exact hXY h5
  have h3 : ((a : ZMod PRIME) - (c : ZMod PRIME)) * ((X : ZMod PRIME) - (Y : ZMod PRIME)) = 0 := by
    linear_combination e1 - e2
  have hac : (a : ZMod PRIME) = (c : ZMod PRIME) := by
    rcases mul_eq_zero.mp h3 with h4 | h4
    · exact sub_eq_zero.mp h4
    · exact absurd h4 hne
  have hbd : (b : ZMod PRIME) = (d : ZMod PRIME) := by
    rw [hac] at e1
    exact add_left_cancel e1
  have hac1 := (ZMod.natCast_eq_natCast_iff' _ _ _).mp hac
  have hbd1 := (ZMod.natCast_eq_natCast_iff' _ _ _).mp hbd
  rw [Nat.mod_eq_of_lt ha, Nat.mod_eq_of_lt hc] at hac1
  rw [Nat.mod_eq_of_lt hb, Nat.mod_eq_of_lt hd] at hbd1
  exact ⟨hac1, hbd1⟩

/-- The pairs of different residues modulo `PRIME` that agree modulo `m`, each
counted `m` times, are at most `PRIME * (PRIME - 1)`. -/
theorem card_congruentPairs_mul_le (m : Nat) (hm : 0 < m) :
    (congruentPairs m).card * m ≤ PRIME * (PRIME - 1) := by
  classical
  have hfst : ∀ q ∈ congruentPairs m, q.1 ∈ Finset.range PRIME := by
    intro q hq
    rw [mem_congruentPairs] at hq
    exact Finset.mem_range.mpr hq.1.1
  rw [Finset.card_eq_sum_card_fiberwise hfst, Finset.sum_mul]
  have hfiber : ∀ u ∈ Finset.range PRIME,
      ((congruentPairs m).filter (fun q => q.1 = u)).card * m ≤ PRIME - 1 := by
    intro u hu
    have hle : ((congruentPairs m).filter (fun q => q.1 = u)).card ≤
        ((Finset.range PRIME).filter (fun v => v ≠ u ∧ v % m = u % m)).card := by
      apply Finset.card_le_card_of_injOn Prod.snd
      · intro q hq
        rw [Finset.mem_filter, mem_congruentPairs] at hq
        rw [Finset.mem_filter, Finset.mem_range]
        refine ⟨hq.1.1.2, ?_, ?_⟩
        · rw [← hq.2]; exact fun h => hq.1.2.1 h.symm
        · rw [← hq.2]; exact hq.1.2.2.symm
      · intro q hq q' hq' heq
        rw [Finset.mem_coe, Finset.mem_filter] at hq hq'
        exact Prod.ext (hq.2.trans hq'.2.symm) heq
    calc ((congruentPairs m).filter (fun q => q.1 = u)).card * m
        ≤ ((Finset.range PRIME).filter (fun v => v ≠ u ∧ v % m = u % m)).card * m :=
          Nat.mul_le_mul_right _ hle
      _ ≤ PRIME - 1 := card_filter_mod_eq_mul_le PRIME u m hm (Finset.mem_range.mp hu)
  calc Finset.sum (Finset.range PRIME)
        (fun u => ((congruentPairs m).filter (fun q => q.1 = u)).card * m)
      ≤ Finset.sum (Finset.range PRIME) (fun _ => PRIME - 1) := Finset.sum_le_sum hfiber
    _ = PRIME * (PRIME - 1) := by
        rw [Finset.sum_const, Finset.card_range, smul_eq_mul]

/-- For two different keys that are not negative, the coefficient pairs of the
draw range under which the keys collide, each counted `m` times, are at most
`PRIME * (PRIME - 1)`. -/
theorem HashCode.card_collisions_mul_le {m : Nat} {x y : Int} (hm : 0 < m) (hx0 : 0 ≤ x)
    (hx : isInt x) (hy0 : 0 ≤ y) (hy : isInt y) (hxy : x ≠ y) :
    (HashCode.collisions m x y).card * m ≤ PRIME * (PRIME - 1) := by
  have hX : x.toNat < PRIME := by unfold isInt at hx; unfold PRIME; omega
  have hY : y.toNat < PRIME := by unfold isInt at hy; unfold PRIME; omega
  have hXY : x.toNat ≠ y.toNat := by omega
  have hrange : ∀ {a : Nat}, a ∈ HashCode.drawRange → 0 < a ∧ a < PRIME ∧ a ≤ 2147483647 := by
    intro a ha
    have := HashCode.mem_drawRange.mp ha
    unfold PRIME
    omega
  have hle : (HashCode.collisions m x y).card ≤ (congruentPairs m).card := by
    apply Finset.card_le_card_of_injOn
      (fun p : Nat × Nat => ((p.1 * x.toNat + p.2) % PRIME, (p.1 * y.toNat + p.2) % PRIME))
    · intro p hp
      rw [HashCode.mem_collisions] at hp
      obtain ⟨ha0, haP, ha1⟩ := hrange hp.1.1
      obtain ⟨_, _, hb1⟩ := hrange hp.1.2
      have hcall := hp.2
      rw [HashCode.call_of_nonneg _ ha1 hb1 hx0 hx,
        HashCode.call_of_nonneg _ ha1 hb1 hy0 hy] at hcall
      rw [mem_congruentPairs]
      have hP : 0 < PRIME := by unfold PRIME; norm_num
      exact ⟨⟨Nat.mod_lt _ hP, Nat.mod_lt _ hP⟩, linear_mod_ne ha0 haP hX hY hXY, hcall⟩
    · intro p hp p' hp' heq
      rw [Finset.mem_coe, HashCode.mem_collisions] at hp hp'
      simp only [Prod.mk.injEq] at heq
      obtain ⟨h1, h2⟩ := linear_mod_inj (hrange hp.1.1).2.1 (hrange hp.1.2).2.1
        (hrange hp'.1.1).2.1 (hrange hp'.1.2).2.1 hX hY hXY heq.1 heq.2
      exact Prod.ext h1 h2
  exact (Nat.mul_le_mul_right _ hle).trans (card_congruentPairs_mul_le m hm)

theorem HashCode.mem_lowPairs (p : Nat × Nat) :
    p ∈ HashCode.lowPairs ↔ (1 ≤ p.1 ∧ p.1 ≤ 1073741824) ∧ 1 ≤ p.2 ∧ p.2 ≤ 2147483646 := by
  simp only [HashCode.lowPairs, Finset.mem_product, Finset.mem_Icc, HashCode.mem_drawRange]

theorem HashCode.card_lowPairs : HashCode.lowPairs.card = 1073741824 * 2147483646 := by
  simp only [HashCode.lowPairs]
  rw [Finset.card_product, Nat.card_Icc, HashCode.card_drawRange]

/-- The keys `0` and `2` collide in range `2` under every drawn `b` and every
drawn `a` up to `2 ^ 30`. -/
theorem HashCode.card_collisions_zero_two :
    1073741824 * 2147483646 ≤ (HashCode.collisions 2 0 2).card := by
  have hsub : HashCode.lowPairs ⊆ HashCode.collisions 2 0 2 := by
    intro p hp
    rw [HashCode.mem_lowPairs] at hp
    rw [HashCode.mem_collisions, HashCode.mem_drawRange, HashCode.mem_drawRange]
    refine ⟨⟨⟨hp.1.1, by omega⟩, hp.2⟩, ?_⟩
    rw [HashCode.call_of_nonneg _ (by show p.1 ≤ 2147483647; omega)
        (by show p.2 ≤ 2147483647; omega) (le_refl 0) (by unfold isInt; omega),
      HashCode.call_of_nonneg _ (by show p.1 ≤ 2147483647; omega)
        (by show p.2 ≤ 2147483647; omega) (by omega : (0 : Int) ≤ 2) (by unfold isInt; omega)]
    have e0 : (0 : Int).toNat = 0 := rfl
    have e2 : (2 : Int).toNat = 2 := rfl
    rw [e0, e2, Nat.mul_zero, Nat.zero_add]
    show p.2 % PRIME % 2 = (p.1 * 2 + p.2) % PRIME % 2
    unfold PRIME
    rw [Nat.mod_eq_of_lt (by omega : p.2 < 4294967311),
      Nat.mod_eq_of_lt (by omega : p.1 * 2 + p.2 < 4294967311)]
    omega
  have hcard := Finset.card_le_card hsub
  rw [HashCode.card_lowPairs] at hcard
  exact hcard

/-- With `a = 2` the keys `-2147483648` and `120` get the same value before the
reduction by the range, whatever `b` is drawn: the conversion of the negative
key adds `2 ^ 64`, which is `225` modulo `PRIME`. -/
theorem HashCode.call_min_eq_call_120 (m b : Nat) (hb : b ≤ 2147483646) :
    (HashCode.mk 2 b m).call (-2147483648) = (HashCode.mk 2 b m).call 120 := by
  have e1 : toULL (-2147483648) = 18446744071562067968 := by decide
  have e2 : toULL 120 = 120 := by decide
  unfold HashCode.call
  simp only [e1, e2, ULL_MOD, PRIME]
  congr 1
  omega

/-- For the keys `-2147483648` and `120` and the range `2 ^ 34` the colliding
coefficient pairs, each counted `2 ^ 34` times, exceed `PRIME * (PRIME - 1)`. -/
theorem HashCode.card_collisions_negative_key :
    PRIME * (PRIME - 1) <
      (HashCode.collisions 17179869184 (-2147483648) 120).card * 17179869184 := by
  have hle : HashCode.drawRange.card ≤
      (HashCode.collisions 17179869184 (-2147483648) 120).card := by
    apply Finset.card_le_card_of_injOn (fun b : Nat => ((2 : Nat), b))
    · intro b hb
      have hb1 := HashCode.mem_drawRange.mp hb
      rw [HashCode.mem_collisions]
      exact ⟨⟨HashCode.mem_drawRange.mpr (by omega), hb⟩,
        HashCode.call_min_eq_call_120 _ b hb1.2⟩
    · intro b _ b1 _ heq
      simp only [Prod.mk.injEq, true_and] at heq
      exact heq
  rw [HashCode.card_drawRange] at hle
  unfold PRIME
  omega

/-! ## Solutions of `a * D ≡ 225` modulo `PRIME` -/

theorem PRIME_pos : 0 < PRIME := by unfold PRIME; norm_num

/-- `2 ^ 64` leaves the remainder `225` modulo `PRIME`. -/
theorem ULL_MOD_mod_PRIME : ULL_MOD % PRIME = 225 := by
  unfold ULL_MOD PRIME; norm_num

/-- Every `a` that is not a multiple of `PRIME` has a `D` below `PRIME` with
`a * D ≡ 225`. -/
theorem exists_mul_mod_eq {a : Nat} (ha0 : 0 < a) (ha : a < PRIME) :
    ∃ D, D < PRIME ∧ a * D % PRIME = 225 := by
  haveI : Fact (Nat.Prime PRIME) := ⟨prime_PRIME⟩
  have hane : (a : ZMod PRIME) ≠ 0 := by
    intro h
    have := Nat.le_of_dvd ha0 ((ZMod.natCast_zmod_eq_zero_iff_dvd a PRIME).mp h)
    omega
  refine ⟨((225 : ZMod PRIME) * (a : ZMod PRIME)⁻¹).val, ZMod.val_lt _, ?_⟩
  have h1 : ((a * ((225 : ZMod PRIME) * (a : ZMod PRIME)⁻¹).val : Nat) : ZMod PRIME)
      = ((225 : Nat) : ZMod PRIME) := by
    push_cast
    rw [ZMod.natCast_zmod_val]
    field_simp
  have h2 := (ZMod.natCast_eq_natCast_iff' _ _ _).mp h1
  rw [h2]
  unfold PRIME
  norm_num

/-- The `D` below `PRIME` with `a * D ≡ 225` determines `a` below `PRIME`. -/
theorem mul_mod_eq_inj {a c D : Nat} (ha : a < PRIME) (hc : c < PRIME)
    (h1 : a * D % PRIME = 225) (h2 : c * D % PRIME = 225) : a = c := by
  haveI : Fact (Nat.Prime PRIME) := ⟨prime_PRIME⟩
  have e : ((a * D : Nat) : ZMod PRIME) = ((c * D : Nat) : ZMod PRIME) :=
    (ZMod.natCast_eq_natCast_iff' _ _ _).mpr (h1.trans h2.symm)
  push_cast at e
  have hD : (D : ZMod PRIME) ≠ 0 := by
    intro h
    have hdvd := (ZMod.natCast_zmod_eq_zero_iff_dvd D PRIME).mp h
    have : a * D % PRIME = 0 := Nat.mod_eq_zero_of_dvd (Dvd.dvd.mul_left hdvd a)
    omega
  have hac : (a : ZMod PRIME) = (c : ZMod PRIME) := mul_right_cancel₀ hD e
  have := (ZMod.natCast_eq_natCast_iff' _ _ _).mp hac
  rwa [Nat.mod_eq_of_lt ha, Nat.mod_eq_of_lt hc] at this

/-- A set of values `a` whose solutions `D` all lie in `B` has at most as
many elements as `B`. -/
theorem card_le_of_solutions_mem (A B : Finset Nat)
    (hA : ∀ a ∈ A, 0 < a ∧ a < PRIME)
    (hB : ∀ a ∈ A, ∀ D, D < PRIME → a * D % PRIME = 225 → D ∈ B) : A.card ≤ B.card := by
  classical
  have hex : ∀ a : Nat, ∃ D, a ∈ A → D < PRIME ∧ a * D % PRIME = 225 := by
    intro a
    by_cases ha : a ∈ A
    · obtain ⟨D, hD⟩ := exists_mul_mod_eq (hA a ha).1 (hA a ha).2
      exact ⟨D, fun _ => hD⟩
    · exact ⟨0, fun h => absurd h ha⟩
  choose f hf using hex
  apply Finset.card_le_card_of_injOn f
  · intro a ha
    exact hB a ha (f a) (hf a ha).1 (hf a ha).2
  · intro a ha c hc heq
    have h1 := (hf a (Finset.mem_coe.mp ha)).2
    have h2 := (hf c (Finset.mem_coe.mp hc)).2
    rw [← heq] at h2
    exact mul_mod_eq_inj (hA a (Finset.mem_coe.mp ha)).2 (hA c (Finset.mem_coe.mp hc)).2 h1 h2

/-! ## A negative and a non-negative key with the same hash value -/

theorem toULL_neg_natCast {t : Nat} (ht : 0 < t) (ht1 : t ≤ 2147483648) :
    toULL (-(t : Int)) = 18446744073709551616 - t := by
  unfold toULL; omega

theorem toULL_natCast {y : Nat} (hy : y ≤ 2147483647) : toULL (y : Int) = y := by
  unfold toULL; omega

/-- When `a * (t + y) ≡ 225` modulo `PRIME` and `b < a * t`, the keys `-t` and
`y` get the same hash value under `a` and `b`, for every range: the product
`a * (2 ^ 64 - t)` wraps, and `2 ^ 64 ≡ 225`. -/
theorem HashCode.call_neg_eq_call {a b t y : Nat} (m : Nat) (ha : a ≤ 2147483646)
    (hb : b ≤ 2147483646) (ht : 0 < t) (ht1 : t ≤ 2147483648) (hy : y ≤ 2147483647)
    (hwrap : b < a * t) (hsol : a * (t + y) % PRIME = 225) :
    (HashCode.mk a b m).call (-(t : Int)) = (HashCode.mk a b m).call (y : Int) := by
  unfold HashCode.call
  simp only [toULL_neg_natCast ht ht1, toULL_natCast hy]
  have hs : a * t ≤ 2147483646 * 2147483648 := Nat.mul_le_mul ha ht1
  have hw : a * y ≤ 2147483646 * 2147483647 := Nat.mul_le_mul ha hy
  have hdm := Nat.div_add_mod (a * (t + y)) PRIME
  rw [hsol, Nat.mul_add] at hdm
  have ha1 : 1 ≤ a := by
    rcases Nat.eq_zero_or_pos a with h0 | h0
    · rw [h0, Nat.zero_mul] at hwrap; omega
    · exact h0
  have hmul : a * (18446744073709551616 - t) = a * 18446744073709551616 - a * t :=
    Nat.mul_sub a _ _
  rw [hmul]
  generalize a * t = s at *
  generalize a * y = w at *
  generalize (s + w) / PRIME = k1 at *
  unfold PRIME at hdm ⊢
  have hU : ULL_MOD = 18446744073709551616 := by unfold ULL_MOD; norm_num
  rw [hU]
  have h1 : a * 18446744073709551616 - s + b
      = (18446744073709551616 + b - s) + 18446744073709551616 * (a - 1) := by omega
  have h2 : 18446744073709551616 + b - s
      = (w + b) + 4294967311 * (4294967281 - k1) := by omega
  rw [h1, Nat.add_mul_mod_self_left,
    Nat.mod_eq_of_lt (by omega : 18446744073709551616 + b - s < 18446744073709551616), h2,
    Nat.add_mul_mod_self_left,
    Nat.mod_eq_of_lt (by omega : w + b < 18446744073709551616)]

/-! ## A bucket on which most placement passes fail -/

theorem mem_wrapBucket (x : Int) :
    x ∈ wrapBucket ↔
      (∃ j : Nat, j < 65536 ∧ -((32768 * (j + 1) : Nat) : Int) = x) ∨
      (∃ i : Nat, i < 32768 ∧ (i : Int) = x) ∨
      (∃ i : Nat, i < 32768 ∧ ((2147450880 + i : Nat) : Int) = x) := by
  simp only [wrapBucket, List.mem_append, List.mem_map, List.mem_range]

theorem length_wrapBucket : wrapBucket.length = 131072 := by
  simp only [wrapBucket, List.length_append, List.length_map, List.length_range]

theorem isInt_wrapBucket : ∀ x ∈ wrapBucket, isInt x := by
  intro x hx
  rw [mem_wrapBucket] at hx
  unfold isInt
  rcases hx with ⟨j, hj, rfl⟩ | ⟨i, hi, rfl⟩ | ⟨i, hi, rfl⟩ <;> omega

theorem nodup_wrapBucket : wrapBucket.Nodup := by
  simp only [wrapBucket]
  refine List.Nodup.append ?_ (List.Nodup.append ?_ ?_ ?_) ?_
  · exact List.Nodup.map (fun a b h => by omega) (List.nodup_range _)
  · exact List.Nodup.map (fun a b h => by omega) (List.nodup_range _)
  · exact List.Nodup.map (fun a b h => by omega) (List.nodup_range _)
  · intro x h1 h2
    simp only [List.mem_map, List.mem_range] at h1 h2
    obtain ⟨i, hi, rfl⟩ := h1
    obtain ⟨j, hj, h⟩ := h2
    omega
  · intro x h1 h2
    simp only [List.mem_append, List.mem_map, List.mem_range] at h1 h2
    obtain ⟨i, hi, rfl⟩ := h1
    rcases h2 with ⟨j, hj, h⟩ | ⟨j, hj, h⟩ <;> omega

theorem size_wrapBucket :
    (wrapBucket.length * wrapBucket.length) % ULL_MOD = 17179869184 := by
  rw [length_wrapBucket]; unfold ULL_MOD; norm_num

/-- Every `D` from `32768` to `2 ^ 32 - 1` is the difference of a non-negative
and a negative member of `wrapBucket`. -/
theorem exists_difference_wrapBucket {D : Nat} (h1 : 32768 ≤ D) (h2 : D ≤ 4294967295) :
    ∃ t y : Nat, D = t + y ∧ 32768 ≤ t ∧ t ≤ 2147483648 ∧ y ≤ 2147483647 ∧
      -(t : Int) ∈ wrapBucket ∧ (y : Int) ∈ wrapBucket := by
  by_cases hD : D ≤ 2147516415
  · refine ⟨32768 * (D / 32768), D % 32768, by omega, by omega, by omega, by omega, ?_, ?_⟩
    · rw [mem_wrapBucket]
      refine Or.inl ⟨D / 32768 - 1, by omega, ?_⟩
      have : D / 32768 - 1 + 1 = D / 32768 := by omega
      rw [this]
    · rw [mem_wrapBucket]
      exact Or.inr (Or.inl ⟨D % 32768, by omega, rfl⟩)
  · refine ⟨32768 * (D / 32768 - 65535), 2147450880 + D % 32768, by omega, by omega, by omega,
      by omega, ?_, ?_⟩
    · rw [mem_wrapBucket]
      refine Or.inl ⟨D / 32768 - 65535 - 1, by omega, ?_⟩
      have : D / 32768 - 65535 - 1 + 1 = D / 32768 - 65535 := by omega
      rw [this]
    · rw [mem_wrapBucket]
      exact Or.inr (Or.inr ⟨D % 32768, by omega, rfl⟩)

namespace SquareMemoryHashSet

theorem mem_goodPairs (bucket : List Int) (p : Nat × Nat) :
    p ∈ goodPairs bucket ↔
      (p.1 ∈ HashCode.drawRange ∧ p.2 ∈ HashCode.drawRange) ∧
        (place (HashCode.mk p.1 p.2 ((bucket.length * bucket.length) % ULL_MOD)) bucket
          (List.replicate ((bucket.length * bucket.length) % ULL_MOD) NOT_USER_VALUE)).isSome
          = true := by
  simp only [goodPairs, Finset.mem_filter, Finset.mem_product]

/-- Two different members of the bucket with the same hash value make the
placement pass end with `filled == false`. -/
theorem place_none_of_collision (h : HashCode) {bucket : List Int} {size : Nat}
    (hpow : h.power = size) (hsize : 0 < size) (hint : ∀ x ∈ bucket, isInt x)
    {x y : Int} (hx : x ∈ bucket) (hy : y ∈ bucket) (hxy : x ≠ y)
    (hcall : h.call x = h.call y) :
    place h bucket (List.replicate size NOT_USER_VALUE) = none := by
  cases hp : place h bucket (List.replicate size NOT_USER_VALUE) with
  | none => rfl
  | some vt =>
    exfalso
    have hpw := (place_some h bucket _ _ hp hint
      (fun z _ => by
        rw [List.length_replicate]
        exact hpow ▸ HashCode.call_lt _ (hpow ▸ hsize) z)).2.2.2.2
    have hsymm : Symmetric (fun u v : Int => h.call u ≠ h.call v) :=
      fun _ _ h1 h2 => h1 h2.symm
    exact List.Pairwise.forall hsymm hpw hx hy hxy hcall

/-- A coefficient pair with `a ≥ 65536` under which a placement pass on
`wrapBucket` succeeds has no solution `D` of `a * D ≡ 225` between `32768` and
`2 ^ 32 - 1`. -/
theorem solution_of_goodPair {a b : Nat} (hp : (a, b) ∈ goodPairs wrapBucket)
    (ha : 65536 ≤ a) {D : Nat} (hsol : a * D % PRIME = 225) :
    D < 32768 ∨ 4294967296 ≤ D := by
  by_contra hcon
  have hD1 : 32768 ≤ D := by omega
  have hD2 : D ≤ 4294967295 := by omega
  rw [mem_goodPairs, size_wrapBucket] at hp
  have ha1 := (HashCode.mem_drawRange.mp hp.1.1).2
  have hb1 := (HashCode.mem_drawRange.mp hp.1.2).2
  obtain ⟨t, y, hDty, ht, ht1, hy, hmt, hmy⟩ := exists_difference_wrapBucket hD1 hD2
  have hwrap : b < a * t := by
    have := Nat.mul_le_mul ha ht
    simp only at hb1
    omega
  rw [hDty] at hsol
  have hcall := HashCode.call_neg_eq_call 17179869184 ha1 hb1 (by omega) ht1 hy hwrap hsol
  have hnone := place_none_of_collision (HashCode.mk a b 17179869184) rfl (by norm_num)
    isInt_wrapBucket hmt hmy (by omega) hcall
  have hsome := hp.2
  simp only at hsome
  rw [hnone] at hsome
  cases hsome

/-- A set of pairs whose second components lie in a set of `n` elements has at
most `n` elements for each first component. -/
theorem card_le_card_image_fst_mul (G : Finset (Nat × Nat)) (R : Finset Nat) (n : Nat)
    (hR : R.card = n) (hsnd : ∀ p ∈ G, p.2 ∈ R) :
    G.card ≤ (G.image Prod.fst).card * n := by
  have hfst : ∀ p ∈ G, p.1 ∈ G.image Prod.fst :=
    fun p hp => Finset.mem_image_of_mem _ hp
  have hfiber : ∀ a ∈ G.image Prod.fst, (G.filter (fun p => p.1 = a)).card ≤ n := by
    intro a _
    rw [← hR]
    apply Finset.card_le_card_of_injOn Prod.snd
    · intro p hp
      rw [Finset.mem_filter] at hp
      exact hsnd p hp.1
    · intro p hp q hq heq
      rw [Finset.mem_coe, Finset.mem_filter] at hp hq
      exact Prod.ext (hp.2.trans hq.2.symm) heq
  rw [Finset.card_eq_sum_card_fiberwise hfst]
  calc Finset.sum (G.image Prod.fst) (fun a => (G.filter (fun p => p.1 = a)).card)
      ≤ Finset.sum (G.image Prod.fst) (fun _ => n) := Finset.sum_le_sum hfiber
    _ = (G.image Prod.fst).card * n := by rw [Finset.sum_const, smul_eq_mul]

/-- A set of values `a` below `PRIME`, of which those from `65536` on have no
solution `D` of `a * D ≡ 225` between `32768` and `2 ^ 32 - 1`, has at most
`98319` elements. -/
theorem card_le_of_no_solution (A : Finset Nat) (hA : ∀ a ∈ A, 0 < a ∧ a < PRIME)
    (hsol : ∀ a ∈ A, 65536 ≤ a → ∀ D, D < PRIME → a * D % PRIME = 225 →
      D < 32768 ∨ 4294967296 ≤ D) : A.card ≤ 98319 := by
  have hlow : (A.filter (fun a => a < 65536)).card ≤ 65536 := by
    refine (Finset.card_le_card ?_).trans (le_of_eq (Finset.card_range 65536))
    intro a ha
    rw [Finset.mem_filter] at ha
    rw [Finset.mem_range]
    exact ha.2
  have hhigh : (A.filter (fun a => ¬ a < 65536)).card ≤ 32768 + 15 := by
    have hB : (Finset.range 32768 ∪ Finset.Icc 4294967296 4294967310).card ≤ 32768 + 15 := by
      refine (Finset.card_union_le _ _).trans ?_
      rw [Finset.card_range, Nat.card_Icc]
    refine (card_le_of_solutions_mem _ _ ?_ ?_).trans hB
    · intro a ha
      rw [Finset.mem_filter] at ha
      exact hA a ha.1
    · intro a ha D hD hDsol
      rw [Finset.mem_filter] at ha
      rw [Finset.mem_union, Finset.mem_range, Finset.mem_Icc]
      rcases hsol a ha.1 (by omega) D hD hDsol with h | h
      · exact Or.inl h
      · refine Or.inr ⟨h, ?_⟩
        unfold PRIME at hD
        omega
  rw [← Finset.filter_card_add_filter_neg_card_eq_card (fun a => a < 65536)]
  omega

/-- On `wrapBucket` at most `98319 * 2147483646` of the `2147483646 ^ 2`
coefficient pairs of the draw range make a placement pass succeed. -/
theorem card_goodPairs_wrapBucket :
    (goodPairs wrapBucket).card ≤ 98319 * 2147483646 := by
  have h1 := card_le_card_image_fst_mul (goodPairs wrapBucket) HashCode.drawRange 2147483646
    HashCode.card_drawRange (fun p hp => ((mem_goodPairs wrapBucket p).mp hp).1.2)
  have h2 : ((goodPairs wrapBucket).image Prod.fst).card ≤ 98319 := by
    apply card_le_of_no_solution
    · intro a ha
      obtain ⟨p, hp, hpa⟩ := Finset.mem_image.mp ha
      have := HashCode.mem_drawRange.mp ((mem_goodPairs wrapBucket p).mp hp).1.1
      rw [← hpa]
      unfold PRIME
      omega
    · intro a ha h65536 D _ hDsol
      obtain ⟨p, hp, hpa⟩ := Finset.mem_image.mp ha
      have hp1 : (a, p.2) ∈ goodPairs wrapBucket := by rw [← hpa]; exact hp
      exact solution_of_goodPair hp1 h65536 hDsol
  exact h1.trans (Nat.mul_le_mul_right _ h2)

end SquareMemoryHashSet

/-- Computed over the integers, the value `((a * x + b) mod P) mod m` is
different for different `int` keys when the range `m` is at least `PRIME` and
`a` is not a multiple of `PRIME`. -/
theorem HashCode.exactValue_ne (h : HashCode) (ha0 : 0 < h.a_coeff) (ha : h.a_coeff < PRIME)
    (hm : PRIME ≤ h.power) {x y : Int} (hx : isInt x) (hy : isInt y) (hxy : x ≠ y) :
    h.exactValue x ≠ h.exactValue y := by
  intro heq
  unfold HashCode.exactValue at heq
  have hP : (0 : Int) < (PRIME : Int) := by exact_mod_cast PRIME_pos
  have hmP : (PRIME : Int) ≤ (h.power : Int) := by exact_mod_cast hm
  have hred : ∀ z : Int, (z % (PRIME : Int)) % (h.power : Int) = z % (PRIME : Int) := by
    intro z
    apply Int.emod_eq_of_lt (Int.emod_nonneg _ (ne_of_gt hP))
    exact lt_of_lt_of_le (Int.emod_lt_of_pos _ hP) hmP
  rw [hred, hred] at heq
  have hdvd : (PRIME : Int) ∣ (h.a_coeff : Int) * (x - y) := by
    have h1 := Int.emod_emod_of_dvd ((h.a_coeff : Int) * x + (h.b_coeff : Int))
      (dvd_refl (PRIME : Int))
    have h2 : ((h.a_coeff : Int) * x + (h.b_coeff : Int)
        - ((h.a_coeff : Int) * y + (h.b_coeff : Int))) % (PRIME : Int) = 0 := by
      rw [Int.sub_emod, heq, sub_self, Int.zero_emod]
    have h3 := Int.dvd_of_emod_eq_zero h2
    have h4 : (h.a_coeff : Int) * x + (h.b_coeff : Int)
        - ((h.a_coeff : Int) * y + (h.b_coeff : Int)) = (h.a_coeff : Int) * (x - y) := by ring
    rwa [h4] at h3
  have hprime : Prime (PRIME : Int) := Nat.prime_iff_prime_int.mp prime_PRIME
  rcases hprime.dvd_or_dvd hdvd with h1 | h1
  · have := Int.le_of_dvd (by exact_mod_cast ha0) h1
    have : PRIME ≤ h.a_coeff := by exact_mod_cast this
    omega
  · obtain ⟨k, hk⟩ := h1
    unfold isInt at hx hy
    unfold PRIME at hk
    push_cast at hk
    omega

/-! ## The slots after a placement pass -/

theorem HashCode.call_eq_residue_mod (h : HashCode) (x : Int) :
    h.call x = h.residue x % h.power := rfl

namespace SquareMemoryHashSet

/-- After a placement pass that ended with `filled == true`, slot `i` holds the
marker exactly when no number of the bucket was hashed to `i`, and holds the
converted value of an `int` exactly when that value is in the bucket and was
hashed to `i`. -/
theorem place_slot_iff {h : HashCode} {bucket : List Int} {size : Nat} {vt : List Nat}
    (hint : ∀ z ∈ bucket, isInt z) (hpow : h.power = size) (hsize : 0 < size)
    (hp : place h bucket (List.replicate size NOT_USER_VALUE) = some vt)
    {i : Nat} (hi : i < size) :
    (vt.getD i 0 = NOT_USER_VALUE ↔ ∀ z ∈ bucket, h.call z ≠ i) ∧
    ∀ q : Int, isInt q → (vt.getD i 0 = toULL q ↔ q ∈ bucket ∧ h.call q = i) := by
  obtain ⟨_, hstored, hkeep, _, _⟩ := place_some h bucket _ _ hp hint
    (fun z _ => by
      rw [List.length_replicate]
      exact hpow ▸ HashCode.call_lt _ (hpow ▸ hsize) z)
  have hfree : (∀ z ∈ bucket, h.call z ≠ i) → vt.getD i 0 = NOT_USER_VALUE := by
    intro hno
    rw [hkeep i hno, getD_replicate _ _ _ _ hi]
  refine ⟨⟨?_, hfree⟩, ?_⟩
  · intro hs z hz hzi
    have := hstored z hz
    rw [hzi, hs] at this
    exact toULL_ne_NOT_USER_VALUE (hint z hz) this.symm
  · intro q hq
    constructor
    · intro hv
      by_cases hex : ∃ z ∈ bucket, h.call z = i
      · obtain ⟨z, hz, hzi⟩ := hex
        have := hstored z hz
        rw [hzi, hv] at this
        have hqz : q = z := toULL_injective hq (hint z hz) this
        rw [hqz]
        exact ⟨hz, hzi⟩
      · have := hfree (fun z hz hzi => hex ⟨z, hz, hzi⟩)
        rw [hv] at this
        exact absurd this (toULL_ne_NOT_USER_VALUE hq)
    · rintro ⟨hqb, hqi⟩
      rw [← hqi]
      exact hstored q hqb

/-- A placement pass on a table of free slots ends with `filled == true`
exactly when the positions of the bucket get pairwise distinct hash values. -/
theorem place_isSome_iff {h : HashCode} {bucket : List Int} {size : Nat}
    (hint : ∀ z ∈ bucket, isInt z) (hpow : h.power = size) (hsize : 0 < size) :
    (place h bucket (List.replicate size NOT_USER_VALUE)).isSome = true ↔
      bucket.Pairwise (fun x y => h.call x ≠ h.call y) := by
  have hlt : ∀ z : Int, h.call z < size := fun z =>
    hpow ▸ HashCode.call_lt _ (hpow ▸ hsize) z
  constructor
  · intro hs
    obtain ⟨vt, hvt⟩ := Option.isSome_iff_exists.mp hs
    exact (place_some h bucket _ _ hvt hint
      (fun z _ => by rw [List.length_replicate]; exact hlt z)).2.2.2.2
  · intro hpw
    obtain ⟨vt, hvt⟩ := place_isSome h bucket (List.replicate size NOT_USER_VALUE)
      (fun z _ => getD_replicate _ _ _ _ (hlt z)) hpw
    rw [hvt]
    rfl

end SquareMemoryHashSet

/-! ## Occupied slots -/

theorem occupiedSlots_replicate (n : Nat) :
    occupiedSlots (List.replicate n NOT_USER_VALUE) = 0 := by
  unfold occupiedSlots
  rw [List.filter_replicate_of_neg (by simp), List.length_nil]

theorem occupiedSlots_set (v : Nat) (hv : v ≠ NOT_USER_VALUE) :
    ∀ (l : List Nat) (i : Nat), i < l.length → l.getD i 0 = NOT_USER_VALUE →
      occupiedSlots (l.set i v) = occupiedSlots l + 1 := by
  intro l
  induction l with
  | nil => intro i hi _; simp at hi
  | cons a t ih =>
    intro i hi hget
    cases i with
    | zero =>
      have ha : a = NOT_USER_VALUE := by simpa using hget
      subst ha
      simp [occupiedSlots, List.filter_cons, hv]
    | succ j =>
      have hj : j < t.length := by simpa using hi
      have hgj : t.getD j 0 = NOT_USER_VALUE := by simpa using hget
      have := ih j hj hgj
      unfold occupiedSlots at this ⊢
      simp only [List.set_cons_succ, List.filter_cons]
      split <;> simp only [List.length_cons, this]

namespace SquareMemoryHashSet

/-- A placement pass that ends with `filled == true` occupies one more slot
for every number of the bucket. -/
theorem occupiedSlots_place (h : HashCode) :
    ∀ (xs : List Int) (vt vt1 : List Nat), place h xs vt = some vt1 →
      (∀ x ∈ xs, isInt x) → (∀ x ∈ xs, h.call x < vt.length) →
      occupiedSlots vt1 = occupiedSlots vt + xs.length := by
  intro xs
  induction xs with
  | nil =>
    intro vt vt1 hp _ _
    simp only [place, Option.some.injEq] at hp
    subst hp
    simp
  | cons x rest ih =>
    intro vt vt1 hp hint hlt
    obtain ⟨hs, hrest⟩ := place_cons_some hp
    have hxlt : h.call x < vt.length := hlt x (List.mem_cons_self _ _)
    rw [ih _ _ hrest (fun y hy => hint y (List.mem_cons_of_mem _ hy))
        (fun y hy => by simpa using hlt y (List.mem_cons_of_mem _ hy)),
      occupiedSlots_set _ (toULL_ne_NOT_USER_VALUE (hint x (List.mem_cons_self _ _))) _ _
        hxlt hs, List.length_cons]
    omega

end SquareMemoryHashSet

/-! ## The vector of all `int` values and a vector of equal values -/

theorem allInts_eq :
    allInts = (List.range 4294967296).map (fun i : Nat => (i : Int) - 2147483648) := by
  unfold allInts; rfl

theorem sevens_eq : sevens = List.replicate 4294967296 7 := by
  unfold sevens; rfl

theorem length_allInts : allInts.length = 4294967296 := by
  rw [allInts_eq, List.length_map, List.length_range]

theorem nodup_allInts : allInts.Nodup := by
  rw [allInts_eq]
  exact List.Nodup.map (fun a b h => by omega) (List.nodup_range _)

theorem isInt_allInts : ∀ x ∈ allInts, isInt x := by
  intro x hx
  rw [allInts_eq, List.mem_map] at hx
  obtain ⟨i, hi, hix⟩ := hx
  rw [List.mem_range] at hi
  unfold isInt
  omega

theorem zero_mem_allInts : (0 : Int) ∈ allInts := by
  rw [allInts_eq, List.mem_map]
  exact ⟨2147483648, List.mem_range.mpr (by omega), by omega⟩

theorem length_sevens : sevens.length = 4294967296 := by
  rw [sevens_eq, List.length_replicate]

theorem isInt_sevens : ∀ x ∈ sevens, isInt x := by
  intro x hx
  rw [sevens_eq, List.mem_replicate] at hx
  rw [hx.2]
  decide

theorem FixedSet.bucket_sevens (h : HashCode) (i : Nat) :
    (FixedSet.bucket h sevens i).length = 0 ∨
      (FixedSet.bucket h sevens i).length = 4294967296 := by
  unfold FixedSet.bucket
  rw [sevens_eq, List.filter_replicate]
  split
  · right; rw [List.length_replicate]
  · left; rfl

theorem FixedSet.bucket_sevens_self (h : HashCode) :
    (FixedSet.bucket h sevens (h.call 7)).length = 4294967296 := by
  unfold FixedSet.bucket
  rw [sevens_eq, List.filter_replicate_of_pos (by simp), List.length_replicate]

/-! ## The committed second-level table -/

namespace SquareMemoryHashSet

/-- The state of a second-level table built from fewer than `2 ^ 32` numbers:
the square of that many slots, each number at its hashed slot, the marker in
the slots no number is hashed to, as many occupied slots as numbers, and
different numbers at different slots. -/
theorem BuiltFrom.slots {bucket : List Int} {s : SquareMemoryHashSet}
    (hb : BuiltFrom bucket s) (hint : ∀ x ∈ bucket, isInt x)
    (hlen : bucket.length < 4294967296) :
    s.value_table.length = bucket.length * bucket.length ∧
    (∀ x ∈ bucket, s.hash_code.call x < bucket.length * bucket.length ∧
      s.value_table.getD (s.hash_code.call x) 0 = toULL x) ∧
    (∀ j, j < bucket.length * bucket.length → (∀ x ∈ bucket, s.hash_code.call x ≠ j) →
      s.value_table.getD j 0 = NOT_USER_VALUE) ∧
    occupiedSlots s.value_table = bucket.length ∧
    (∀ x ∈ bucket, ∀ y ∈ bucket, s.hash_code.call x = s.hash_code.call y → x = y) := by
  have hl : s.value_table.length = bucket.length * bucket.length := by
    rw [hb.1, FixedSet.sq_mod_of_lt hlen]
  cases hbk : bucket with
  | nil =>
    have h0 : s.value_table = [] := by
      apply List.length_eq_zero.mp
      rw [hl, hbk]; rfl
    rw [h0]
    refine ⟨rfl, ?_, ?_, rfl, ?_⟩
    · intro x hx; cases hx
    · intro j hj; simp at hj
    · intro x hx; cases hx
  | cons a t =>
    rw [← hbk]
    have hpos : 0 < bucket.length := by rw [hbk]; simp
    have hsz : 0 < bucket.length * bucket.length := Nat.mul_pos hpos hpos
    have hne : s.value_table ≠ [] := by
      intro h0
      rw [← hl, h0] at hsz
      exact Nat.lt_irrefl 0 hsz
    obtain ⟨⟨r1, r2, hr⟩, hplace⟩ := hb.2 hne
    rw [hl] at hplace hr
    have hpow : s.hash_code.power = bucket.length * bucket.length := by rw [hr]; rfl
    have hlt : ∀ z : Int, s.hash_code.call z < bucket.length * bucket.length := fun z =>
      hpow ▸ HashCode.call_lt _ (hpow ▸ hsz) z
    have hlt' : ∀ z ∈ bucket, s.hash_code.call z
        < (List.replicate (bucket.length * bucket.length) NOT_USER_VALUE).length :=
      fun z _ => by rw [List.length_replicate]; exact hlt z
    obtain ⟨_, hstored, hkeep, _, hpw⟩ := place_some s.hash_code bucket _ _ hplace hint hlt'
    refine ⟨hl, fun x hx => ⟨hlt x, hstored x hx⟩, ?_, ?_, ?_⟩
    · intro j hj hno
      rw [hkeep j hno, getD_replicate _ _ _ _ hj]
    · rw [occupiedSlots_place s.hash_code bucket _ _ hplace hint hlt',
        occupiedSlots_replicate, Nat.zero_add]
    · intro x hx y hy hxy
      by_contra hne1
      have hsymm : Symmetric (fun u v : Int => s.hash_code.call u ≠ s.hash_code.call v) :=
        fun _ _ h1 h2 => h1 h2.symm
      exact List.Pairwise.forall hsymm hpw hx hy hne1 hxy

/-- A built second-level table holds only numbers of its bucket. -/
theorem BuiltFrom.mem_of_holds {bucket : List Int} {s : SquareMemoryHashSet}
    (hb : BuiltFrom bucket s) (hint : ∀ x ∈ bucket, isInt x) {q : Int} (hq : isInt q)
    (hh : s.holds q) : q ∈ bucket := by
  unfold holds at hh
  have hne : s.value_table ≠ [] := List.ne_nil_of_mem hh
  obtain ⟨⟨r1, r2, hr⟩, hplace⟩ := hb.2 hne
  have hpow : s.hash_code.power = s.value_table.length := by rw [hr]; rfl
  have hpos : 0 < s.value_table.length := List.length_pos.mpr hne
  obtain ⟨j, hj, hjq⟩ := List.getElem_of_mem hh
  have hget : s.value_table.getD j 0 = toULL q := by
    rw [List.getD_eq_getElem _ _ hj]; exact hjq
  exact (((place_slot_iff hint hpow hpos hplace hj).2 q hq).mp hget).1

end SquareMemoryHashSet

/-! ## The top-level trial -/

namespace FixedSet

/-- The sizes of the buckets of a hash function with values below `n` add up
to the number of input numbers. -/
theorem sum_length_bucket (h : HashCode) (n : Nat) :
    ∀ (numbers : List Int), (∀ x ∈ numbers, h.call x < n) →
      Finset.sum (Finset.range n) (fun i => (bucket h numbers i).length) = numbers.length := by
  intro numbers
  induction numbers with
  | nil => intro _; simp [bucket]
  | cons x rest ih =>
    intro hlt
    have hx := hlt x (List.mem_cons_self _ _)
    have hrest := ih (fun y hy => hlt y (List.mem_cons_of_mem _ hy))
    have hstep : ∀ i, (bucket h (x :: rest) i).length
        = (if h.call x = i then 1 else 0) + (bucket h rest i).length := by
      intro i
      unfold bucket
      by_cases hxi : h.call x = i
      · simp [List.filter_cons, hxi]; omega
      · simp [List.filter_cons, hxi]
    rw [Finset.sum_congr rfl (fun i _ => hstep i), Finset.sum_add_distrib, hrest,
      Finset.sum_ite_eq, if_pos (Finset.mem_range.mpr hx), List.length_cons]
    omega

/-- For fewer than `2 ^ 32` input numbers the sum the source forms in
`unsigned long long` is the sum of the squares of the bucket sizes. -/
theorem secondLayerPower_eq_sum {h : HashCode} {numbers : List Int}
    (hlt : ∀ x ∈ numbers, h.call x < numbers.length) (hlen : numbers.length < 4294967296) :
    secondLayerPower ((List.range numbers.length).map (bucket h numbers)) =
      ((List.range numbers.length).map
        (fun i => (bucket h numbers i).length * (bucket h numbers i).length)).sum := by
  rw [secondLayerPower_eq, List.map_map, sum_map_range, sum_map_range]
  have hterm : ∀ i, ((fun c : List Int => (c.length * c.length) % ULL_MOD) ∘ bucket h numbers) i
      = (bucket h numbers i).length * (bucket h numbers i).length := by
    intro i
    exact sq_mod_of_lt (lt_of_le_of_lt (length_bucket_le _ _ _) hlen)
  rw [Finset.sum_congr rfl (fun i _ => hterm i)]
  apply Nat.mod_eq_of_lt
  have hle : Finset.sum (Finset.range numbers.length)
      (fun i => (bucket h numbers i).length * (bucket h numbers i).length)
      ≤ Finset.sum (Finset.range numbers.length)
        (fun i => (bucket h numbers i).length * numbers.length) :=
    Finset.sum_le_sum (fun i _ => Nat.mul_le_mul_left _ (length_bucket_le _ _ _))
  rw [← Finset.sum_mul, sum_length_bucket h numbers.length numbers hlt] at hle
  have hsq : numbers.length * numbers.length ≤ 4294967295 * 4294967295 :=
    Nat.mul_le_mul (by omega) (by omega)
  unfold ULL_MOD
  have : (4294967295 : Nat) * 4294967295 < 2 ^ 64 := by norm_num
  omega

end FixedSet

/-! ## The checks never fail -/

theorem HashCode.callChecked_eq (h : HashCode) (hp : 0 < h.power) (x : Int) :
    h.callChecked x = Except.ok (h.call x) := by
  unfold HashCode.callChecked
  rw [if_neg (Nat.pos_iff_ne_zero.mp hp)]

namespace SquareMemoryHashSet

theorem placeChecked_eq (h : HashCode) (hp : 0 < h.power) :
    ∀ (xs : List Int) (vt : List Nat), h.power ≤ vt.length →
      placeChecked h xs vt = Except.ok (place h xs vt) := by
  intro xs
  induction xs with
  | nil => intro vt _; rfl
  | cons x rest ih =>
    intro vt hle
    have hlt : ¬ vt.length ≤ h.call x := by
      have := HashCode.call_lt h hp x
      omega
    rw [placeChecked, HashCode.callChecked_eq h hp x]
    simp only
    rw [if_neg hlt, place]
    by_cases hs : vt.getD (h.call x) 0 ≠ NOT_USER_VALUE
    · rw [if_pos hs, if_pos hs]
    · rw [if_neg hs, if_neg hs]
      exact ih _ (by rw [List.length_set]; exact hle)

theorem makeLoopChecked_eq (numbers : List Int) (size : Nat) (hs : 0 < size) :
    ∀ rs : List Nat, makeLoopChecked numbers size rs = Except.ok (makeLoop numbers size rs)
  | [] => rfl
  | [_] => rfl
  | r1 :: r2 :: rs => by
    rw [makeLoopChecked, makeLoop,
      placeChecked_eq (HashCode.InitializeRandomly size r1 r2) hs numbers _
        (by rw [List.length_replicate]; exact Nat.le_refl _)]
    cases place (HashCode.InitializeRandomly size r1 r2) numbers
        (List.replicate size NOT_USER_VALUE) with
    | none => exact makeLoopChecked_eq numbers size hs rs
    | some vt => rfl

theorem MakeTableChecked_eq (s : SquareMemoryHashSet) (numbers : List Int) (rs : List Nat) :
    s.MakeTableChecked numbers rs = Except.ok (s.MakeTable numbers rs) := by
  unfold MakeTableChecked MakeTable
  by_cases he : s.value_table.isEmpty = true
  · rw [if_pos he, if_pos he]
  · rw [if_neg he, if_neg he]
    apply makeLoopChecked_eq
    apply List.length_pos.mpr
    intro hnil
    rw [hnil] at he
    exact he rfl

theorem tableInitializeChecked_eq (s : SquareMemoryHashSet) (numbers : List Int) (rs : List Nat) :
    s.InitializeChecked numbers rs = Except.ok (s.Initialize numbers rs) :=
  MakeTableChecked_eq _ numbers rs

theorem place_length (h : HashCode) :
    ∀ (xs : List Int) (vt vt1 : List Nat), place h xs vt = some vt1 →
      vt1.length = vt.length := by
  intro xs
  induction xs with
  | nil =>
    intro vt vt1 hp
    simp only [place, Option.some.injEq] at hp
    rw [hp]
  | cons x rest ih =>
    intro vt vt1 hp
    rw [ih _ _ (place_cons_some hp).2, List.length_set]

/-- A second-level table is consistent when its hash function, unless the
table has no slots, has the number of slots as its range. -/
theorem Initialize_power {s s1 : SquareMemoryHashSet} {bucket : List Int}
    {rs rs1 : List Nat} (hi : s.Initialize bucket rs = some (s1, rs1))
    (hne : s1.value_table ≠ []) : s1.hash_code.power = s1.value_table.length := by
  unfold Initialize MakeTable at hi
  simp only at hi
  split at hi
  · rename_i hempty
    simp only [Option.some.injEq, Prod.mk.injEq] at hi
    rw [← hi.1] at hne
    exact absurd (List.isEmpty_iff.mp hempty) hne
  · obtain ⟨⟨r1, r2, hr⟩, hplace⟩ := makeLoop_some bucket _ rs.length rs (Nat.le_refl _) s1 rs1 hi
    have hl := place_length _ _ _ _ hplace
    rw [List.length_replicate] at hl
    rw [hr, hl]
    rfl

theorem tableContainsChecked_eq (s : SquareMemoryHashSet)
    (hw : s.value_table ≠ [] → s.hash_code.power = s.value_table.length) (q : Int) :
    s.ContainsChecked q = Except.ok (s.Contains q) := by
  unfold ContainsChecked Contains
  by_cases he : s.value_table.isEmpty = true
  · rw [if_pos he, if_pos he]
  · rw [if_neg he, if_neg he]
    have hne : s.value_table ≠ [] := fun hnil => he (by rw [hnil]; rfl)
    have hpow := hw hne
    have hpos : 0 < s.hash_code.power := by
      rw [hpow]; exact List.length_pos.mpr hne
    rw [HashCode.callChecked_eq _ hpos q]
    simp only
    rw [if_neg]
    have := HashCode.call_lt _ hpos q
    omega

end SquareMemoryHashSet

namespace FixedSet

theorem distributeChecked_eq (h : HashCode) (hp : 0 < h.power) :
    ∀ (xs : List Int) (cells : List (List Int)), h.power ≤ cells.length →
      distributeChecked h xs cells = Except.ok (distribute h xs cells) := by
  intro xs
  induction xs with
  | nil => intro cells _; rfl
  | cons x rest ih =>
    intro cells hle
    have hlt : ¬ cells.length ≤ h.call x := by
      have := HashCode.call_lt h hp x
      omega
    rw [distributeChecked, HashCode.callChecked_eq h hp x]
    simp only
    rw [if_neg hlt, distribute]
    exact ih _ (by rw [length_pushBack]; exact hle)

theorem length_distribute (h : HashCode) :
    ∀ (xs : List Int) (cells : List (List Int)),
      (distribute h xs cells).length = cells.length := by
  intro xs
  induction xs with
  | nil => intro cells; rfl
  | cons x rest ih =>
    intro cells
    rw [distribute, ih, length_pushBack]

theorem createLoopChecked_eq (numbers : List Int) (hne : numbers ≠ []) :
    ∀ rs : List Nat, createLoopChecked numbers numbers.length rs
      = Except.ok (createLoop numbers numbers.length rs)
  | [] => rfl
  | [_] => rfl
  | r1 :: r2 :: rs => by
    rw [createLoopChecked, createLoop,
      distributeChecked_eq (HashCode.InitializeRandomly numbers.length r1 r2)
        (List.length_pos.mpr hne) numbers _
        (by rw [List.length_replicate]; exact Nat.le_refl _)]
    simp only
    split
    · rfl
    · exact createLoopChecked_eq numbers hne rs

theorem buildLoopChecked_eq (h : HashCode) (hp : 0 < h.power) (cells : List (List Int))
    (hc : h.power ≤ cells.length) :
    ∀ (xs : List Int) (table : List SquareMemoryHashSet) (rs : List Nat),
      h.power ≤ table.length →
      buildLoopChecked h cells xs table rs = Except.ok (buildLoop h cells xs table rs) := by
  intro xs
  induction xs with
  | nil => intro table rs _; rfl
  | cons x rest ih =>
    intro table rs hle
    have hlt : ¬ (table.length ≤ h.call x ∨ cells.length ≤ h.call x) := by
      have := HashCode.call_lt h hp x
      omega
    rw [buildLoopChecked, HashCode.callChecked_eq h hp x]
    simp only
    rw [if_neg hlt, buildLoop, SquareMemoryHashSet.tableInitializeChecked_eq]
    cases (table.getD (h.call x) SquareMemoryHashSet.fresh).Initialize
        (cells.getD (h.call x) []) rs with
    | none => rfl
    | some p =>
      obtain ⟨s, rs1⟩ := p
      exact ih _ _ (by rw [List.length_set]; exact hle)

theorem InitializeChecked_eq (fs : FixedSet) (numbers : List Int) (rs : List Nat) :
    fs.InitializeChecked numbers rs = Except.ok (fs.Initialize numbers rs) := by
  unfold InitializeChecked Initialize MakeTableChecked MakeTable
  simp only [length_resize]
  by_cases he : (resize fs.table numbers.length SquareMemoryHashSet.fresh).isEmpty = true
  · rw [if_pos he, if_pos he]
  · rw [if_neg he, if_neg he]
    have hne : numbers ≠ [] := by
      intro hnil
      apply he
      rw [hnil]
      simp [resize]
    rw [createLoopChecked_eq numbers hne rs]
    cases hcl : createLoop numbers numbers.length rs with
    | none => rfl
    | some p =>
      obtain ⟨h, cells, rs1⟩ := p
      obtain ⟨⟨r1, r2, hr⟩, hcells, _⟩ :=
        createLoop_some numbers numbers.length rs.length rs (Nat.le_refl _) h cells rs1 hcl
      have hpow : h.power = numbers.length := by rw [hr]; rfl
      have hpos : 0 < h.power := by rw [hpow]; exact List.length_pos.mpr hne
      simp only
      rw [buildLoopChecked_eq h hpos cells
        (by rw [hcells, length_distribute, List.length_replicate, hpow]) numbers _ rs1
        (by rw [length_resize, hpow])]
      cases buildLoop h cells numbers
          (resize fs.table numbers.length SquareMemoryHashSet.fresh) rs1 with
      | none => rfl
      | some p2 => rfl

theorem buildChecked_eq (numbers : List Int) (rs : List Nat) :
    buildChecked numbers rs = Except.ok (build numbers rs) :=
  InitializeChecked_eq fresh numbers rs

/-- The last loop of `MakeTable` keeps the number of entries and leaves every
entry consistent. -/
theorem buildLoop_power (h : HashCode) (cells : List (List Int)) :
    ∀ (xs : List Int) (table : List SquareMemoryHashSet) (rs : List Nat)
      (table1 : List SquareMemoryHashSet) (rs1 : List Nat),
      buildLoop h cells xs table rs = some (table1, rs1) →
      (∀ s ∈ table, s.value_table ≠ [] → s.hash_code.power = s.value_table.length) →
      table1.length = table.length ∧
      ∀ s ∈ table1, s.value_table ≠ [] → s.hash_code.power = s.value_table.length := by
  intro xs
  induction xs with
  | nil =>
    intro table rs table1 rs1 hb hw
    simp only [buildLoop, Option.some.injEq, Prod.mk.injEq] at hb
    rw [← hb.1]
    exact ⟨rfl, hw⟩
  | cons x rest ih =>
    intro table rs table1 rs1 hb hw
    rw [buildLoop] at hb
    split at hb
    · cases hb
    · rename_i s rs2 hinit
      obtain ⟨hl, hw1⟩ := ih _ _ _ _ hb (fun t ht => by
        rcases List.mem_or_eq_of_mem_set ht with hm | he
        · exact hw t hm
        · rw [he]
          exact SquareMemoryHashSet.Initialize_power hinit)
      exact ⟨by rw [hl, List.length_set], hw1⟩

/-- After a completed build the top-level function, unless there is no table,
has the number of tables as its range, and every table is consistent. -/
theorem build_power {numbers : List Int} {rs rs1 : List Nat} {fs : FixedSet}
    (hb : build numbers rs = some (fs, rs1)) :
    (fs.table ≠ [] → fs.hash_code.power = fs.table.length) ∧
    ∀ s ∈ fs.table, s.value_table ≠ [] → s.hash_code.power = s.value_table.length := by
  unfold build Initialize MakeTable at hb
  simp only [fresh, resize_nil, List.length_replicate] at hb
  split at hb
  · simp only [Option.some.injEq, Prod.mk.injEq] at hb
    rw [← hb.1]
    rename_i hempty
    rw [List.isEmpty_iff.mp hempty]
    exact ⟨fun h => absurd rfl h, fun s hs => by cases hs⟩
  · split at hb
    · cases hb
    · rename_i h cells rs2 hcreate
      split at hb
      · cases hb
      · rename_i table rs3 hbuild
        simp only [Option.some.injEq, Prod.mk.injEq] at hb
        rw [← hb.1]
        obtain ⟨⟨r1, r2, hr⟩, _, _⟩ :=
          createLoop_some numbers numbers.length rs.length rs (Nat.le_refl _) h cells rs2
            hcreate
        obtain ⟨hl, hw⟩ := buildLoop_power h cells numbers _ rs2 table rs3 hbuild
          (fun s hs => by
            rw [(List.mem_replicate.mp hs).2]
            intro hne
            exact absurd rfl hne)
        refine ⟨fun _ => ?_, hw⟩
        show h.power = table.length
        rw [hl, List.length_replicate, hr]
        rfl

theorem ContainsChecked_eq (fs : FixedSet)
    (hw : fs.table ≠ [] → fs.hash_code.power = fs.table.length)
    (hs : ∀ s ∈ fs.table, s.value_table ≠ [] → s.hash_code.power = s.value_table.length)
    (q : Int) : fs.ContainsChecked q = Except.ok (fs.Contains q) := by
  unfold ContainsChecked Contains
  by_cases he : fs.table.isEmpty = true
  · rw [if_pos he, if_pos he]
  · rw [if_neg he, if_neg he]
    have hne : fs.table ≠ [] := fun hnil => he (by rw [hnil]; rfl)
    have hpow := hw hne
    have hpos : 0 < fs.hash_code.power := by
      rw [hpow]; exact List.length_pos.mpr hne
    have hlt : fs.hash_code.call q < fs.table.length := hpow ▸ HashCode.call_lt _ hpos q
    rw [HashCode.callChecked_eq _ hpos q]
    simp only
    rw [if_neg (by omega)]
    apply SquareMemoryHashSet.tableContainsChecked_eq
    apply hs
    rw [List.getD_eq_getElem _ _ hlt]
    exact List.getElem_mem _

end FixedSet

theorem queriesChecked_eq (fs : FixedSet)
    (hw : fs.table ≠ [] → fs.hash_code.power = fs.table.length)
    (hs : ∀ s ∈ fs.table, s.value_table ≠ [] → s.hash_code.power = s.value_table.length) :
    ∀ requests : List Int, queriesChecked fs requests = Except.ok (requests.map fs.Contains) := by
  intro requests
  induction requests with
  | nil => rfl
  | cons q rest ih =>
    rw [queriesChecked, FixedSet.ContainsChecked_eq fs hw hs q, ih]
    rfl

theorem test_numbersChecked_eq (numbers requests : List Int) (rs : List Nat) :
    test_numbersChecked numbers requests rs
      = Except.ok (test_numbers numbers requests rs) := by
  unfold test_numbersChecked test_numbers
  rw [FixedSet.buildChecked_eq]
  cases hb : FixedSet.build numbers rs with
  | none => rfl
  | some p =>
    obtain ⟨fs, rs1⟩ := p
    obtain ⟨hw, hs⟩ := FixedSet.build_power hb
    simp only
    rw [queriesChecked_eq fs hw hs requests]

/-! ## The sample runs -/

theorem build_sampleA : FixedSet.build [1, 5, 9, 2] drawsA = some (sampleSetA, []) := by
  decide

theorem build_sampleB : FixedSet.build [1, 5, 9, 2] drawsB = some (sampleSetB, []) := by
  decide

theorem build_sampleC :
    FixedSet.build [1000000000, -1000000000] drawsC = some (sampleSetC, []) := by
  decide

theorem isInt_sampleA : ∀ x ∈ ([1, 5, 9, 2] : List Int), isInt x := by decide

theorem isInt_sampleC : ∀ x ∈ ([1000000000, -1000000000] : List Int), isInt x := by decide

/-! ## Main results -/

/-- C1: for every list `S` of pairwise distinct `int` values and every build
of `FixedSet` from `S` that completes, whatever `rand()` returned,
`Contains(x)` is `true` for every `x` in `S`. -/
theorem contains_true_of_mem (S : List Int) (rs rs1 : List Nat) (fs : FixedSet)
    (hint : ∀ x ∈ S, isInt x) (hnd : S.Nodup)
    (hb : FixedSet.build S rs = some (fs, rs1)) (x : Int) (hx : x ∈ S) :
    fs.Contains x = true :=
  (FixedSet.contains_iff_of_build hint hnd hb (hint x hx)).mpr hx

/-- The runs named by C1: `1, 5, 9, 2` queried for `1` and `5`, and
`1000000000, -1000000000` queried for `1000000000`. -/
theorem contains_true_of_mem_witness :
    FixedSet.build [1, 5, 9, 2] drawsA = some (sampleSetA, []) ∧
    sampleSetA.Contains 1 = true ∧ sampleSetA.Contains 5 = true ∧
    FixedSet.build [1000000000, -1000000000] drawsC = some (sampleSetC, []) ∧
    sampleSetC.Contains 1000000000 = true :=
  ⟨build_sampleA,
    contains_true_of_mem [1, 5, 9, 2] drawsA [] sampleSetA isInt_sampleA (by decide)
      build_sampleA 1 (by decide),
    contains_true_of_mem [1, 5, 9, 2] drawsA [] sampleSetA isInt_sampleA (by decide)
      build_sampleA 5 (by decide),
    build_sampleC,
    contains_true_of_mem [1000000000, -1000000000] drawsC [] sampleSetC
      isInt_sampleC (by decide) build_sampleC 1000000000 (by decide)⟩

/-- C2: for every list `S` of `int` values (pairwise distinct or not), every
completed build of `FixedSet` from `S` and every `int` value `x` that is not in
`S`, `Contains(x)` is `false`: the slot is compared with the stored value. -/
theorem contains_false_of_not_mem (S : List Int) (rs rs1 : List Nat) (fs : FixedSet)
    (hint : ∀ x ∈ S, isInt x) (hb : FixedSet.build S rs = some (fs, rs1))
    (x : Int) (hx : isInt x) (hnot : x ∉ S) : fs.Contains x = false := by
  cases S with
  | nil =>
    rw [FixedSet.build_nil] at hb
    simp only [Option.some.injEq, Prod.mk.injEq] at hb
    rw [← hb.1]
    rfl
  | cons a l =>
    have hB := FixedSet.build_some (List.cons_ne_nil a l) hint hb
    cases hc : fs.Contains x with
    | false => rfl
    | true => exact absurd (hB.mem_of_contains hint hx hc) hnot

/-- The runs named by C2: `1, 5, 9, 2` queried for `3`, and
`1000000000, -1000000000` queried for `0`. -/
theorem contains_false_of_not_mem_witness :
    FixedSet.build [1, 5, 9, 2] drawsA = some (sampleSetA, []) ∧
    sampleSetA.Contains 3 = false ∧
    FixedSet.build [1000000000, -1000000000] drawsC = some (sampleSetC, []) ∧
    sampleSetC.Contains 0 = false :=
  ⟨build_sampleA,
    contains_false_of_not_mem [1, 5, 9, 2] drawsA [] sampleSetA isInt_sampleA
      build_sampleA 3 (by decide) (by decide),
    build_sampleC,
    contains_false_of_not_mem [1000000000, -1000000000] drawsC [] sampleSetC
      isInt_sampleC build_sampleC 0 (by decide) (by decide)⟩

/-- C3: a build from the empty list completes for every sequence of draws,
the empty one included, and consumes none of them; the built set has no
second-level table and `Contains(x)` is `false` for every `x`. -/
theorem build_empty (rs : List Nat) :
    ∃ fs, FixedSet.build [] rs = some (fs, rs) ∧ fs.table = [] ∧
      ∀ x : Int, fs.Contains x = false :=
  ⟨FixedSet.fresh, rfl, rfl, fun _ => rfl⟩

/-- C4, as stated, fails: from the list `1, 1` no build completes, whatever
the draws are, so there is no built set to query. -/
theorem build_with_duplicate_never_completes :
    ¬ ∃ (rs : List Nat) (p : FixedSet × List Nat), FixedSet.build [1, 1] rs = some p := by
  rintro ⟨rs, p, hp⟩
  rw [FixedSet.build_eq_none_of_not_nodup (by decide) (by decide) (by decide) rs] at hp
  cases hp

/-- C4, amended: for every list of fewer than `2 ^ 32` `int` values in which
some value occurs more than once, no build of `FixedSet` completes, whatever
the draws are: every placement pass for the bucket of the repeated value ends
with `filled == false`. -/
theorem build_none_of_duplicate (numbers : List Int) (hint : ∀ x ∈ numbers, isInt x)
    (hlen : numbers.length < 4294967296) (hdup : ¬ numbers.Nodup) (rs : List Nat) :
    FixedSet.build numbers rs = none :=
  FixedSet.build_eq_none_of_not_nodup hint hlen hdup rs

/-- The list `2, 7, 2` with the draws `drawsA`. -/
theorem build_none_of_duplicate_witness :
    (∀ x ∈ ([2, 7, 2] : List Int), isInt x) ∧ ¬ ([2, 7, 2] : List Int).Nodup ∧
    FixedSet.build [2, 7, 2] drawsA = none :=
  ⟨by decide, by decide,
    build_none_of_duplicate [2, 7, 2] (by decide) (by decide) (by decide) drawsA⟩

/-- C5: for every non-empty list of `n` `int` values and every completed build
of `FixedSet`, the table has `n` entries, entry `i` has `size_t(k * k)` slots
where `k` is the size of bucket `i` (exactly `k * k`, and none for an empty
bucket, when `n < 2 ^ 32`), and the slots of all entries together are fewer
than `MEMORY_COEFF * n`. -/
theorem total_slots_lt (numbers : List Int) (rs rs1 : List Nat) (fs : FixedSet)
    (hne : numbers ≠ []) (hint : ∀ x ∈ numbers, isInt x)
    (hb : FixedSet.build numbers rs = some (fs, rs1)) :
    fs.table.length = numbers.length ∧
    (∀ i, (fs.table.getD i SquareMemoryHashSet.fresh).value_table.length =
      ((FixedSet.bucket fs.hash_code numbers i).length *
        (FixedSet.bucket fs.hash_code numbers i).length) % ULL_MOD) ∧
    (numbers.length < 4294967296 →
      ∀ i, (fs.table.getD i SquareMemoryHashSet.fresh).value_table.length =
        (FixedSet.bucket fs.hash_code numbers i).length *
          (FixedSet.bucket fs.hash_code numbers i).length) ∧
    (fs.table.map (fun s => s.value_table.length)).sum < MEMORY_COEFF * numbers.length := by
  have hB := FixedSet.build_some hne hint hb
  refine ⟨hB.1, fun i => (hB.2.2.2 i).1, fun hlen i => ?_, hB.sum_slots_lt hint⟩
  rw [(hB.2.2.2 i).1]
  exact FixedSet.sq_mod_of_lt (lt_of_le_of_lt (FixedSet.length_bucket_le _ _ _) hlen)

/-- The run `1, 5, 9, 2` with the draws `drawsA`: `1 + 0 + 0 + 9` slots, fewer
than `3 * 4`. -/
theorem total_slots_lt_witness :
    FixedSet.build [1, 5, 9, 2] drawsA = some (sampleSetA, []) ∧
    (sampleSetA.table.map (fun s => s.value_table.length)).sum = 10 ∧
    (sampleSetA.table.map (fun s => s.value_table.length)).sum
      < MEMORY_COEFF * ([1, 5, 9, 2] : List Int).length :=
  ⟨build_sampleA, by decide,
    (total_slots_lt [1, 5, 9, 2] drawsA [] sampleSetA (by decide) isInt_sampleA
      build_sampleA).2.2.2⟩

/-- C6: two completed builds of `FixedSet` from the same list of pairwise
distinct `int` values, with any two sequences of draws, answer every query
alike. -/
theorem contains_independent_of_draws (S : List Int) (rs rs1 rs2 rs3 : List Nat)
    (fs1 fs2 : FixedSet) (hint : ∀ x ∈ S, isInt x) (hnd : S.Nodup)
    (hb1 : FixedSet.build S rs = some (fs1, rs1))
    (hb2 : FixedSet.build S rs2 = some (fs2, rs3)) (x : Int) (hx : isInt x) :
    fs1.Contains x = fs2.Contains x := by
  rw [Bool.eq_iff_iff, FixedSet.contains_iff_of_build hint hnd hb1 hx,
    FixedSet.contains_iff_of_build hint hnd hb2 hx]

/-- Two builds from `1, 5, 9, 2` with different draws: the tables differ, the
answers do not. -/
theorem contains_independent_of_draws_witness :
    FixedSet.build [1, 5, 9, 2] drawsA = some (sampleSetA, []) ∧
    FixedSet.build [1, 5, 9, 2] drawsB = some (sampleSetB, []) ∧
    sampleSetA.table ≠ sampleSetB.table ∧
    sampleSetA.Contains 9 = sampleSetB.Contains 9 ∧
    sampleSetA.Contains 3 = sampleSetB.Contains 3 :=
  ⟨build_sampleA, build_sampleB, by decide,
    contains_independent_of_draws [1, 5, 9, 2] drawsA [] drawsB [] sampleSetA sampleSetB
      isInt_sampleA (by decide) build_sampleA build_sampleB 9 (by decide),
    contains_independent_of_draws [1, 5, 9, 2] drawsA [] drawsB [] sampleSetA sampleSetB
      isInt_sampleA (by decide) build_sampleA build_sampleB 3 (by decide)⟩

/-- C7: for every list `numbers` of pairwise distinct `int` values, every list
`requests` and every completed build, `test_numbers` followed by
`write_answer` writes exactly one line per request, and line `i` is `Yes` when
`requests[i]` occurs in `numbers` and `No` otherwise. -/
theorem write_answer_test_numbers (numbers requests : List Int) (rs : List Nat)
    (results : List Bool) (hint : ∀ x ∈ numbers, isInt x) (hnd : numbers.Nodup)
    (hreq : ∀ q ∈ requests, isInt q)
    (ht : test_numbers numbers requests rs = some results) :
    (write_answer results).length = requests.length ∧
    ∀ i, i < requests.length →
      (write_answer results).getD i "" =
        if requests.getD i 0 ∈ numbers then "Yes" else "No" := by
  unfold test_numbers at ht
  split at ht
  · cases ht
  · rename_i set rs1 hb
    simp only [Option.some.injEq] at ht
    subst ht
    refine ⟨by simp [write_answer], fun i hi => ?_⟩
    have hq : isInt (requests.getD i 0) := by
      rw [List.getD_eq_getElem _ _ hi]
      exact hreq _ (List.getElem_mem _)
    have hiff := FixedSet.contains_iff_of_build hint hnd hb hq
    unfold write_answer
    rw [List.getD_eq_getElem _ _ (by simpa using hi)]
    simp only [List.getElem_map]
    rw [List.getD_eq_getElem _ _ hi] at hiff ⊢
    by_cases hm : requests[i] ∈ numbers
    · rw [if_pos hm, hiff.mpr hm]; rfl
    · rw [if_neg hm]
      have : set.Contains requests[i] = false := by
        cases hc : set.Contains requests[i] with
        | false => rfl
        | true => exact absurd (hiff.mp hc) hm
      rw [this]; rfl

/-- The run `1, 5, 9, 2` with the requests `1, 5, 3`. -/
theorem write_answer_test_numbers_witness :
    test_numbers [1, 5, 9, 2] [1, 5, 3] drawsA = some [true, true, false] ∧
    write_answer [true, true, false] = ["Yes", "Yes", "No"] ∧
    (write_answer [true, true, false]).length = ([1, 5, 3] : List Int).length ∧
    ∀ i, i < ([1, 5, 3] : List Int).length →
      (write_answer [true, true, false]).getD i "" =
        if ([1, 5, 3] : List Int).getD i 0 ∈ ([1, 5, 9, 2] : List Int) then "Yes" else "No" :=
  ⟨by decide, by decide,
    write_answer_test_numbers [1, 5, 9, 2] [1, 5, 3] drawsA [true, true, false]
      isInt_sampleA (by decide) (by decide) (by decide)⟩

/-- C8 at the key `-2` with the coefficients `a = b = 1` (both calls of
`rand()` returned `0`) and the range `4`: `operator()` returns `0`, and
`((a * x + b) mod P) mod m` over the integers is `2`. -/
theorem call_negative_key_not_exact :
    (HashCode.InitializeRandomly 4 0 0).a_coeff = 1 ∧
    (HashCode.InitializeRandomly 4 0 0).b_coeff = 1 ∧
    (HashCode.InitializeRandomly 4 0 0).call (-2) = 0 ∧
    (HashCode.InitializeRandomly 4 0 0).exactValue (-2) = 2 := by
  decide

/-- C9, as stated, fails for the range `2` and the keys `0` and `2`: the
coefficient pairs under which they collide, counted twice, are more than all
the pairs of the draw range. -/
theorem not_universal_zero_two :
    ¬ ((HashCode.collisions 2 0 2).card * 2 ≤
      HashCode.drawRange.card * HashCode.drawRange.card) := by
  intro h
  rw [HashCode.card_drawRange] at h
  have := HashCode.card_collisions_zero_two
  omega

/-- C9, amended: for every range `m > 0` and every two distinct keys that are
not negative, the number of coefficient pairs of the draw range under which the
keys get the same hash value, multiplied by `m`, is at most
`PRIME * (PRIME - 1)`, which is less than five times the number of all pairs. -/
theorem collision_count_mul_le_of_nonneg (m : Nat) (x y : Int) (hm : 0 < m) (hx0 : 0 ≤ x) (hx : isInt x)
    (hy0 : 0 ≤ y) (hy : isInt y) (hxy : x ≠ y) :
    (HashCode.collisions m x y).card * m ≤ PRIME * (PRIME - 1) ∧
    PRIME * (PRIME - 1) < 5 * (HashCode.drawRange.card * HashCode.drawRange.card) := by
  refine ⟨HashCode.card_collisions_mul_le hm hx0 hx hy0 hy hxy, ?_⟩
  rw [HashCode.card_drawRange]
  unfold PRIME
  norm_num

/-- The keys `0` and `2` with the range `2`. -/
theorem collision_count_mul_le_of_nonneg_witness :
    (HashCode.collisions 2 0 2).card * 2 ≤ PRIME * (PRIME - 1) :=
  (collision_count_mul_le_of_nonneg 2 0 2 (by decide) (by decide) (by decide) (by decide) (by decide)
    (by decide)).1

/-- C10 at the bucket `wrapBucket` of `131072` pairwise distinct `int` values
(range `131072 * 131072 = 2 ^ 34`): fewer than half of the coefficient pairs of
the draw range make a placement pass of `SquareMemoryHashSet::MakeTable` end
with `filled == true`; at most `98319 * 2147483646` of the `2147483646 ^ 2`
pairs do. -/
theorem wrapBucket_trials_mostly_fail :
    wrapBucket.length = 131072 ∧ wrapBucket.Nodup ∧ (∀ x ∈ wrapBucket, isInt x) ∧
    (SquareMemoryHashSet.goodPairs wrapBucket).card ≤ 98319 * 2147483646 ∧
    (SquareMemoryHashSet.goodPairs wrapBucket).card * 2 <
      HashCode.drawRange.card * HashCode.drawRange.card := by
  refine ⟨length_wrapBucket, nodup_wrapBucket, isInt_wrapBucket,
    SquareMemoryHashSet.card_goodPairs_wrapBucket, ?_⟩
  have := SquareMemoryHashSet.card_goodPairs_wrapBucket
  rw [HashCode.card_drawRange]
  omega

/-- C11: for every two `int` values `x` and `y`, the value stored for `x` in a
slot, `x` converted to `unsigned long long`, is different from
`NOT_USER_VALUE`, and equal conversions come from equal values; so after a
placement pass that ended with `filled == true`, a slot equals the marker
exactly when no number was placed in it and equals the conversion of `x`
exactly when `x` was placed in it. -/
theorem sentinel_distinguishable (x y : Int) (hx : isInt x) (hy : isInt y) :
    toULL x ≠ NOT_USER_VALUE ∧ (toULL x = toULL y → x = y) ∧
    ∀ (h : HashCode) (bucket : List Int) (size : Nat) (vt : List Nat),
      (∀ z ∈ bucket, isInt z) → h.power = size → 0 < size →
      SquareMemoryHashSet.place h bucket (List.replicate size NOT_USER_VALUE) = some vt →
      ∀ i, i < size →
        (vt.getD i 0 = NOT_USER_VALUE ↔ ∀ z ∈ bucket, h.call z ≠ i) ∧
        (vt.getD i 0 = toULL x ↔ x ∈ bucket ∧ h.call x = i) :=
  ⟨toULL_ne_NOT_USER_VALUE hx, toULL_injective hx hy,
    fun _ _ _ _ hint hpow hsize hp _ hi =>
      ⟨(SquareMemoryHashSet.place_slot_iff hint hpow hsize hp hi).1,
        (SquareMemoryHashSet.place_slot_iff hint hpow hsize hp hi).2 x hx⟩⟩

/-- The values `-1` and `3000000000 - 2 ^ 32`, the `int` whose low 32 bits are
those of the marker, and the table of `sampleSetC`. -/
theorem sentinel_distinguishable_witness :
    toULL (-1) = 18446744073709551615 ∧ toULL (-1294967296) = 18446744072414584320 ∧
    toULL (-1294967296) ≠ NOT_USER_VALUE ∧
    (toULL (-1294967296) = toULL (-1) → (-1294967296 : Int) = -1) ∧
    (([3000000000, 1000000000, 3000000000, 18446744072709551616] : List Nat).getD 0 0
        = NOT_USER_VALUE ↔
      ∀ z ∈ ([1000000000, -1000000000] : List Int), (HashCode.mk 7 8 4).call z ≠ 0) :=
  ⟨by decide, by decide,
    (sentinel_distinguishable (-1294967296) (-1) (by decide) (by decide)).1,
    (sentinel_distinguishable (-1294967296) (-1) (by decide) (by decide)).2.1,
    ((sentinel_distinguishable (-1294967296) (-1) (by decide) (by decide)).2.2
      (HashCode.mk 7 8 4) [1000000000, -1000000000] 4
      [3000000000, 1000000000, 3000000000, 18446744072709551616]
      (by decide) rfl (by decide) (by decide) 0 (by decide)).1⟩

/-- C13: for every bucket of `int` values, repeated values allowed, whose
table has `size_t(k * k) > 0` slots (so the bucket is not empty and the loop is
entered), and every hash function `h` of that range, the placement pass of `SquareMemoryHashSet::MakeTable` ends with
`filled == true` exactly when `h` maps no two positions of the bucket to the
same slot; the loop then commits the table and `h`, and otherwise goes on with
the next draw. -/
theorem placement_pass_filled_iff (bucket : List Int) (h : HashCode)
    (hint : ∀ z ∈ bucket, isInt z)
    (hpow : h.power = (bucket.length * bucket.length) % ULL_MOD)
    (hsize : 0 < (bucket.length * bucket.length) % ULL_MOD) :
    ((SquareMemoryHashSet.place h bucket
        (List.replicate ((bucket.length * bucket.length) % ULL_MOD) NOT_USER_VALUE)).isSome
        = true ↔ bucket.Pairwise (fun x y => h.call x ≠ h.call y)) ∧
    ∀ (size r1 r2 : Nat) (rs : List Nat),
      (∀ vt, SquareMemoryHashSet.place (HashCode.InitializeRandomly size r1 r2) bucket
          (List.replicate size NOT_USER_VALUE) = some vt →
        SquareMemoryHashSet.makeLoop bucket size (r1 :: r2 :: rs)
          = some (⟨vt, HashCode.InitializeRandomly size r1 r2⟩, rs)) ∧
      (SquareMemoryHashSet.place (HashCode.InitializeRandomly size r1 r2) bucket
          (List.replicate size NOT_USER_VALUE) = none →
        SquareMemoryHashSet.makeLoop bucket size (r1 :: r2 :: rs)
          = SquareMemoryHashSet.makeLoop bucket size rs) := by
  refine ⟨SquareMemoryHashSet.place_isSome_iff hint hpow hsize, fun size r1 r2 rs => ⟨?_, ?_⟩⟩
  · intro vt hvt
    rw [SquareMemoryHashSet.makeLoop, hvt]
  · intro hnone
    rw [SquareMemoryHashSet.makeLoop, hnone]

/-- The bucket `1, 5, 9` with the function of `sampleSetA` (no two positions
share a slot) and the bucket `1, 1` with `a = b = 1`. -/
theorem placement_pass_filled_iff_witness :
    ((SquareMemoryHashSet.place (HashCode.mk 7 8 9) [1, 5, 9]
        (List.replicate 9 NOT_USER_VALUE)).isSome = true ↔
      ([1, 5, 9] : List Int).Pairwise
        (fun x y => (HashCode.mk 7 8 9).call x ≠ (HashCode.mk 7 8 9).call y)) ∧
    (SquareMemoryHashSet.place (HashCode.mk 7 8 9) [1, 5, 9]
        (List.replicate 9 NOT_USER_VALUE)).isSome = true ∧
    (SquareMemoryHashSet.place (HashCode.mk 1 1 4) [1, 1]
        (List.replicate 4 NOT_USER_VALUE)).isSome = false :=
  ⟨(placement_pass_filled_iff [1, 5, 9] (HashCode.mk 7 8 9) (by decide) (by decide)
      (by decide)).1, by decide, by decide⟩

/-- C17 at the keys `-2147483648` and `120` with the coefficients `a = 2`,
`b = 1` (the calls of `rand()` returned `1` and `0`): the value
`(a * x + b) % PRIME` that `operator()` holds before the reduction by the range
is `241` for both keys, so they collide for every range. -/
theorem residue_negative_key_degenerate :
    (HashCode.InitializeRandomly 4 1 0).a_coeff = 2 ∧
    (HashCode.InitializeRandomly 4 1 0).b_coeff = 1 ∧
    (HashCode.InitializeRandomly 4 1 0).residue (-2147483648) = 241 ∧
    (HashCode.InitializeRandomly 4 1 0).residue 120 = 241 ∧
    (HashCode.InitializeRandomly 4 1 0).call (-2147483648)
      = (HashCode.InitializeRandomly 4 1 0).call 120 := by
  decide

/-- C18: for all values `r1`, `r2` returned by `rand()` and every requested
range, `InitializeRandomly` yields coefficients with `1 ≤ a ≤ MAX_HASH_COEFF`
and `1 ≤ b ≤ MAX_HASH_COEFF` (in fact at most `MAX_HASH_COEFF - 1`) and the
requested range. -/
theorem InitializeRandomly_bounds (power r1 r2 : Nat) :
    1 ≤ (HashCode.InitializeRandomly power r1 r2).a_coeff ∧
    (HashCode.InitializeRandomly power r1 r2).a_coeff ≤ MAX_HASH_COEFF ∧
    (HashCode.InitializeRandomly power r1 r2).a_coeff ≤ MAX_HASH_COEFF - 1 ∧
    1 ≤ (HashCode.InitializeRandomly power r1 r2).b_coeff ∧
    (HashCode.InitializeRandomly power r1 r2).b_coeff ≤ MAX_HASH_COEFF ∧
    (HashCode.InitializeRandomly power r1 r2).b_coeff ≤ MAX_HASH_COEFF - 1 ∧
    (HashCode.InitializeRandomly power r1 r2).power = power ∧
    MAX_HASH_COEFF = 2 ^ 31 - 1 := by
  obtain ⟨h1, h2, h3, h4⟩ := HashCode.coeff_bounds power r1 r2
  refine ⟨h1, ?_, ?_, h3, ?_, ?_, rfl, ?_⟩ <;> unfold MAX_HASH_COEFF <;> omega

/-- C19: `PRIME = 4294967311` is a prime number, larger than `2 ^ 32`, than the
magnitude of every `int` value and than every coefficient `InitializeRandomly`
can yield. -/
theorem PRIME_is_prime_and_large :
    PRIME = 4294967311 ∧ Nat.Prime PRIME ∧ 2 ^ 32 < PRIME ∧ 2 ^ 31 - 1 < 2 ^ 32 ∧
    (∀ x : Int, isInt x → x.natAbs < PRIME) ∧
    ∀ power r1 r2 : Nat,
      (HashCode.InitializeRandomly power r1 r2).a_coeff < PRIME ∧
      (HashCode.InitializeRandomly power r1 r2).b_coeff < PRIME := by
  refine ⟨rfl, prime_PRIME, by unfold PRIME; norm_num, by norm_num, ?_, ?_⟩
  · intro x hx
    unfold isInt at hx
    unfold PRIME
    omega
  · intro power r1 r2
    obtain ⟨_, h2, _, h4⟩ := HashCode.coeff_bounds power r1 r2
    unfold PRIME
    omega

/-- C20: for every key `x` with `0 ≤ x ≤ 2 ^ 31 - 1`, all coefficients
`1 ≤ a, b ≤ 2 ^ 31 - 2` and every range `m > 0`, the sum `a * x + b` computed
in `unsigned long long` stays below `2 ^ 64`, and `operator()` returns
`((a * x + b) mod 4294967311) mod m` computed over the integers, a value below
`m`. -/
theorem call_exact_of_nonneg (x : Int) (a b m : Nat) (hx0 : 0 ≤ x) (hx : x ≤ 2147483647)
    (ha1 : 1 ≤ a) (ha : a ≤ 2147483646) (hb1 : 1 ≤ b) (hb : b ≤ 2147483646) (hm : 0 < m) :
    a * toULL x + b < ULL_MOD ∧
    ((HashCode.mk a b m).call x : Int)
      = (((a : Int) * x + (b : Int)) % 4294967311) % (m : Int) ∧
    ((HashCode.mk a b m).call x : Int) = (HashCode.mk a b m).exactValue x ∧
    (HashCode.mk a b m).call x < m := by
  have hint : isInt x := by unfold isInt; omega
  have hxn : x.toNat ≤ 2147483647 := by omega
  have hmul : a * x.toNat ≤ 2147483646 * 2147483647 := Nat.mul_le_mul ha hxn
  have hcall := HashCode.call_of_nonneg (HashCode.mk a b m) (by show a ≤ 2147483647; omega)
    (by show b ≤ 2147483647; omega) hx0 hint
  have hcast : ((HashCode.mk a b m).call x : Int)
      = (((a : Int) * x + (b : Int)) % 4294967311) % (m : Int) := by
    rw [hcall]
    show (((a * x.toNat + b) % PRIME % m : Nat) : Int) = _
    have hxc : ((x.toNat : Nat) : Int) = x := Int.toNat_of_nonneg hx0
    unfold PRIME
    push_cast
    rw [hxc]
  refine ⟨?_, hcast, ?_, HashCode.call_lt (HashCode.mk a b m) hm x⟩
  · rw [toULL_of_nonneg hx0 hint]
    unfold ULL_MOD
    have : (2147483646 : Nat) * 2147483647 + 2147483646 < 2 ^ 64 := by norm_num
    omega
  · rw [hcast]
    unfold HashCode.exactValue PRIME
    rfl

/-- The key `5` with `a = 3`, `b = 4` and the range `7`: the value is
`19 mod 7 = 5`. -/
theorem call_exact_of_nonneg_witness :
    (HashCode.mk 3 4 7).call 5 = 5 ∧
    ((HashCode.mk 3 4 7).call 5 : Int) = (((3 : Int) * 5 + 4) % 4294967311) % 7 :=
  ⟨by decide,
    (call_exact_of_nonneg 5 3 4 7 (by decide) (by decide) (by decide) (by decide)
      (by decide) (by decide) (by decide)).2.1⟩

/-- C12: no division by zero and no out-of-bounds access occurs.  For every
input list, all draws of `rand()` and every query, the run of `test_numbers`,
of a build and of `Contains` on a built or on an empty `FixedSet`, and of
`Initialize` and `Contains` of a second-level table, with every `% power`
checked for `power ≠ 0` and every index on `cell_content`, `table` and
`value_table` checked against the size of the vector, passes all checks and
gives what the unchecked run gives; a `HashCode` of range `m > 0` passes its
check and returns a value below `m`; and the constant divisors are not zero. -/
theorem no_division_by_zero_no_out_of_bounds (numbers requests : List Int) (rs : List Nat)
    (q : Int) :
    test_numbersChecked numbers requests rs = Except.ok (test_numbers numbers requests rs) ∧
    FixedSet.buildChecked numbers rs = Except.ok (FixedSet.build numbers rs) ∧
    (∀ fs rs1, FixedSet.build numbers rs = some (fs, rs1) →
      fs.ContainsChecked q = Except.ok (fs.Contains q)) ∧
    FixedSet.fresh.ContainsChecked q = Except.ok false ∧
    (∀ s : SquareMemoryHashSet,
      s.InitializeChecked numbers rs = Except.ok (s.Initialize numbers rs) ∧
      ∀ s1 rs1, s.Initialize numbers rs = some (s1, rs1) →
        s1.ContainsChecked q = Except.ok (s1.Contains q)) ∧
    SquareMemoryHashSet.fresh.ContainsChecked q = Except.ok false ∧
    (∀ h : HashCode, 0 < h.power →
      h.callChecked q = Except.ok (h.call q) ∧ h.call q < h.power) ∧
    (∀ h : HashCode, h.power = 0 → h.callChecked q = Except.error Fault.divisionByZero) ∧
    MAX_HASH_COEFF - 1 ≠ 0 ∧ PRIME ≠ 0 :=
  ⟨test_numbersChecked_eq numbers requests rs,
    FixedSet.buildChecked_eq numbers rs,
    fun fs _ hb =>
      FixedSet.ContainsChecked_eq fs (FixedSet.build_power hb).1 (FixedSet.build_power hb).2 q,
    rfl,
    fun s => ⟨SquareMemoryHashSet.tableInitializeChecked_eq s numbers rs,
      fun s1 _ hi =>
        SquareMemoryHashSet.tableContainsChecked_eq s1 (SquareMemoryHashSet.Initialize_power hi) q⟩,
    rfl,
    fun h hp => ⟨HashCode.callChecked_eq h hp q, HashCode.call_lt h hp q⟩,
    fun h hp => by unfold HashCode.callChecked; rw [if_pos hp],
    by decide, by decide⟩

/-- The checked run of `test_numbers` on the numbers `1, 5, 9, 2` and the
requests `1, 5, 3` with the draws `drawsA`. -/
theorem no_division_by_zero_no_out_of_bounds_witness :
    test_numbersChecked [1, 5, 9, 2] [1, 5, 3] drawsA
      = Except.ok (some [true, true, false]) :=
  (no_division_by_zero_no_out_of_bounds [1, 5, 9, 2] [1, 5, 3] drawsA 0).1.trans
    (congrArg Except.ok (by decide))

/-- C14, as stated, fails at the bucket of all `2 ^ 32` values of `int`
(pairwise distinct): the product `k * k` wraps to `0` in `size_t`, so
`Initialize` completes at once, without a draw, with `0` slots instead of
`k * k`, and the member `0` is stored in no slot. -/
theorem allInts_table_has_no_slots :
    allInts.Nodup ∧ (∀ x ∈ allInts, isInt x) ∧ allInts.length = 4294967296 ∧
    (0 : Int) ∈ allInts ∧
    ∀ rs : List Nat, ∃ s1 : SquareMemoryHashSet,
      SquareMemoryHashSet.fresh.Initialize allInts rs = some (s1, rs) ∧
      s1.value_table.length = 0 ∧
      s1.value_table.length ≠ allInts.length * allInts.length ∧
      ¬ s1.holds 0 ∧ s1.Contains 0 = false ∧
      occupiedSlots s1.value_table ≠ allInts.length := by
  refine ⟨nodup_allInts, isInt_allInts, length_allInts, zero_mem_allInts, fun rs => ?_⟩
  have hsz : (4294967296 * 4294967296) % ULL_MOD = 0 := by unfold ULL_MOD; norm_num
  refine ⟨SquareMemoryHashSet.fresh, ?_, rfl, ?_, by decide, by decide, ?_⟩
  · unfold SquareMemoryHashSet.Initialize SquareMemoryHashSet.MakeTable
    rw [length_allInts, hsz]
    rfl
  · rw [length_allInts]; decide
  · rw [length_allInts]; decide

/-- C14, amended: after a completed `SquareMemoryHashSet::Initialize` from a
bucket of `k < 2 ^ 32` `int` values, with committed function `h`, the table has
exactly `k * k` slots, every member `x` is stored at slot `h(x)`, every slot
that is `h(x)` for no member holds `NOT_USER_VALUE`, exactly `k` slots are
occupied, two members with the same slot are equal, and the bucket is pairwise
distinct (a build from a bucket with a repeated value does not complete). -/
theorem second_level_table_layout (bucket : List Int) (s s1 : SquareMemoryHashSet)
    (rs rs1 : List Nat) (hint : ∀ x ∈ bucket, isInt x)
    (hlen : bucket.length < 4294967296)
    (hi : s.Initialize bucket rs = some (s1, rs1)) :
    s1.value_table.length = bucket.length * bucket.length ∧
    (∀ x ∈ bucket, s1.hash_code.call x < bucket.length * bucket.length ∧
      s1.value_table.getD (s1.hash_code.call x) 0 = toULL x) ∧
    (∀ j, j < bucket.length * bucket.length → (∀ x ∈ bucket, s1.hash_code.call x ≠ j) →
      s1.value_table.getD j 0 = NOT_USER_VALUE) ∧
    occupiedSlots s1.value_table = bucket.length ∧
    (∀ x ∈ bucket, ∀ y ∈ bucket, s1.hash_code.call x = s1.hash_code.call y → x = y) ∧
    bucket.Nodup :=
  have hb := SquareMemoryHashSet.Initialize_some hint hi
  have h := hb.slots hint hlen
  ⟨h.1, h.2.1, h.2.2.1, h.2.2.2.1, h.2.2.2.2,
    by
      by_contra hnd
      have := SquareMemoryHashSet.Initialize_none_of_not_nodup s hint hlen hnd rs
      rw [this] at hi
      cases hi⟩

/-- The bucket `1, 5, 9` with the draws `6, 7` (coefficients `7` and `8`), and
the empty bucket. -/
theorem second_level_table_layout_witness :
    SquareMemoryHashSet.fresh.Initialize [1, 5, 9] [6, 7]
      = some (⟨[3000000000, 3000000000, 3000000000, 3000000000, 3000000000, 3000000000,
          1, 5, 9], ⟨7, 8, 9⟩⟩, []) ∧
    occupiedSlots [3000000000, 3000000000, 3000000000, 3000000000, 3000000000, 3000000000,
      1, 5, 9] = ([1, 5, 9] : List Int).length ∧
    (SquareMemoryHashSet.fresh.Initialize [] [] = some (SquareMemoryHashSet.fresh, []) →
      SquareMemoryHashSet.fresh.value_table.length = 0) :=
  ⟨by decide,
    (second_level_table_layout [1, 5, 9] SquareMemoryHashSet.fresh
      ⟨[3000000000, 3000000000, 3000000000, 3000000000, 3000000000, 3000000000, 1, 5, 9],
        ⟨7, 8, 9⟩⟩ [6, 7] [] (by decide) (by decide) (by decide)).2.2.2.1,
    fun hi => (second_level_table_layout [] SquareMemoryHashSet.fresh SquareMemoryHashSet.fresh [] []
      (by decide) (by decide) hi).1⟩

/-- C15: after a completed build of `FixedSet` from `n ≥ 1` pairwise distinct
`int` values with committed top-level function `h`, `table` has exactly `n`
entries; every input `x` has `h(x) < n`, occupies the slot of `table[h(x)]`
that the function of that table gives, and occupies no slot of `table[i]` for
any `i ≠ h(x)`; and the tables of the indices hit by no input have no slots. -/
theorem number_in_exactly_one_table (numbers : List Int) (rs rs1 : List Nat) (fs : FixedSet)
    (hne : numbers ≠ []) (hint : ∀ x ∈ numbers, isInt x) (hnd : numbers.Nodup)
    (hb : FixedSet.build numbers rs = some (fs, rs1)) :
    fs.table.length = numbers.length ∧
    (∀ x ∈ numbers,
      fs.hash_code.call x < fs.table.length ∧
      (fs.table.getD (fs.hash_code.call x) SquareMemoryHashSet.fresh).hash_code.call x
        < (fs.table.getD (fs.hash_code.call x) SquareMemoryHashSet.fresh).value_table.length ∧
      (fs.table.getD (fs.hash_code.call x) SquareMemoryHashSet.fresh).value_table.getD
        ((fs.table.getD (fs.hash_code.call x) SquareMemoryHashSet.fresh).hash_code.call x) 0
          = toULL x ∧
      (fs.table.getD (fs.hash_code.call x) SquareMemoryHashSet.fresh).holds x ∧
      ∀ i, i ≠ fs.hash_code.call x →
        ¬ (fs.table.getD i SquareMemoryHashSet.fresh).holds x) ∧
    ∀ i, i < fs.table.length → (∀ x ∈ numbers, fs.hash_code.call x ≠ i) →
      (fs.table.getD i SquareMemoryHashSet.fresh).value_table.length = 0 := by
  obtain ⟨hlen, ⟨r1, r2, hr⟩, _, hall⟩ := FixedSet.build_some hne hint hb
  have hpos : 0 < numbers.length := List.length_pos.mpr hne
  have hpow : fs.hash_code.power = numbers.length := by rw [hr]; rfl
  have hbint : ∀ i, ∀ z ∈ FixedSet.bucket fs.hash_code numbers i, isInt z :=
    fun i z hz => hint z (FixedSet.bucket_subset _ _ _ z hz)
  have hblt : ∀ i, (FixedSet.bucket fs.hash_code numbers i).length < 4294967296 := by
    intro i
    rw [hr]
    exact FixedSet.length_bucket_lt hnd hint r1 r2 i
  refine ⟨hlen, fun x hx => ?_, fun i _ hno => ?_⟩
  · have hxb : x ∈ FixedSet.bucket fs.hash_code numbers (fs.hash_code.call x) :=
      FixedSet.mem_bucket.mpr ⟨hx, rfl⟩
    obtain ⟨hl, hst, _, _, _⟩ := (hall (fs.hash_code.call x)).slots (hbint _) (hblt _)
    obtain ⟨hlt, hget⟩ := hst x hxb
    rw [← hl] at hlt
    refine ⟨?_, hlt, hget, ?_, fun i hi hh => ?_⟩
    · rw [hlen, ← hpow]
      exact HashCode.call_lt _ (by rw [hpow]; exact hpos) x
    · unfold SquareMemoryHashSet.holds
      rw [← hget, List.getD_eq_getElem _ _ hlt]
      exact List.getElem_mem _
    · have hm := (hall i).mem_of_holds (hbint i) (hint x hx) hh
      exact hi (FixedSet.mem_bucket.mp hm).2.symm
  · have hnil : FixedSet.bucket fs.hash_code numbers i = [] := by
      apply List.eq_nil_iff_forall_not_mem.mpr
      intro z hz
      obtain ⟨hz1, hz2⟩ := FixedSet.mem_bucket.mp hz
      exact hno z hz1 hz2
    have := (hall i).1
    rw [hnil] at this
    exact this

/-- The set built from `1, 5, 9, 2` with the draws `drawsA`: the number `5` has
top-level hash `3` and is held by `table[3]` only; `table[1]` has no slots. -/
theorem number_in_exactly_one_table_witness :
    FixedSet.build [1, 5, 9, 2] drawsA = some (sampleSetA, []) ∧
    sampleSetA.table.length = 4 ∧
    sampleSetA.hash_code.call 5 = 3 ∧
    (sampleSetA.table.getD 3 SquareMemoryHashSet.fresh).holds 5 ∧
    ¬ (sampleSetA.table.getD 0 SquareMemoryHashSet.fresh).holds 5 ∧
    (sampleSetA.table.getD 1 SquareMemoryHashSet.fresh).value_table.length = 0 :=
  ⟨build_sampleA,
    (number_in_exactly_one_table [1, 5, 9, 2] drawsA [] sampleSetA (by decide) isInt_sampleA
      (by decide) build_sampleA).1,
    by decide,
    ((number_in_exactly_one_table [1, 5, 9, 2] drawsA [] sampleSetA (by decide) isInt_sampleA
      (by decide) build_sampleA).2.1 5 (by decide)).2.2.2.1,
    ((number_in_exactly_one_table [1, 5, 9, 2] drawsA [] sampleSetA (by decide) isInt_sampleA
      (by decide) build_sampleA).2.1 5 (by decide)).2.2.2.2 0 (by decide),
    (number_in_exactly_one_table [1, 5, 9, 2] drawsA [] sampleSetA (by decide) isInt_sampleA
      (by decide) build_sampleA).2.2 1 (by decide) (by decide)⟩

/-- C16, as stated, fails at the input of `n = 2 ^ 32` copies of `7`: whatever
`rand()` returns, all numbers go to one bucket, the square of its size wraps to
`0` in `unsigned long long`, and the first trial is accepted although the sum
of the squares of the bucket sizes, `2 ^ 64`, is not less than `3 * n`. -/
theorem trial_sevens_accepted :
    sevens.length = 4294967296 ∧ (∀ x ∈ sevens, isInt x) ∧
    ∀ (r1 r2 : Nat) (rs : List Nat),
      FixedSet.createLoop sevens sevens.length (r1 :: r2 :: rs)
        = some (HashCode.InitializeRandomly sevens.length r1 r2,
            (List.range sevens.length).map
              (FixedSet.bucket (HashCode.InitializeRandomly sevens.length r1 r2) sevens), rs) ∧
      ¬ ((List.range sevens.length).map (fun i =>
          (FixedSet.bucket (HashCode.InitializeRandomly sevens.length r1 r2) sevens i).length *
          (FixedSet.bucket (HashCode.InitializeRandomly sevens.length r1 r2) sevens i).length)).sum
        < MEMORY_COEFF * sevens.length := by
  refine ⟨length_sevens, isInt_sevens, fun r1 r2 rs => ?_⟩
  have hlt : ∀ x ∈ sevens, (HashCode.InitializeRandomly sevens.length r1 r2).call x
      < sevens.length := fun x _ =>
    HashCode.call_lt _ (by show 0 < sevens.length; rw [length_sevens]; norm_num) x
  have hd := FixedSet.distribute_eq_map_bucket
    (HashCode.InitializeRandomly sevens.length r1 r2) sevens sevens.length hlt
  constructor
  · rw [FixedSet.createLoop, hd, if_pos]
    rw [FixedSet.secondLayerPower_eq, List.map_map, FixedSet.sum_map_range,
      Finset.sum_eq_zero, length_sevens]
    · decide
    · intro i _
      show ((FixedSet.bucket _ sevens i).length * (FixedSet.bucket _ sevens i).length)
        % ULL_MOD = 0
      rcases FixedSet.bucket_sevens (HashCode.InitializeRandomly sevens.length r1 r2) i
        with h0 | h1
      · rw [h0, Nat.zero_mul, Nat.zero_mod]
      · rw [h1]; decide
  · rw [FixedSet.sum_map_range, length_sevens]
    have hi : (HashCode.InitializeRandomly 4294967296 r1 r2).call 7
        ∈ Finset.range 4294967296 := by
      apply Finset.mem_range.mpr
      exact HashCode.call_lt _ (by show 0 < 4294967296; norm_num) 7
    have hle := Finset.single_le_sum
      (f := fun i => (FixedSet.bucket (HashCode.InitializeRandomly 4294967296 r1 r2)
        sevens i).length *
        (FixedSet.bucket (HashCode.InitializeRandomly 4294967296 r1 r2) sevens i).length)
      (fun _ _ => Nat.zero_le _) hi
    simp only [FixedSet.bucket_sevens_self] at hle
    unfold MEMORY_COEFF
    omega

/-- C16, amended: for every input list of `1 ≤ n < 2 ^ 32` numbers and every
drawn top-level function `h` of range `n`, the distribution loop leaves in
`cell_content[i]` exactly the inputs whose hash is `i`, in input order, the
sizes of the cells add up to `n`, and the trial is accepted, with this `h` and
this partition, exactly when the sum of the squares of the sizes is less than
`MEMORY_COEFF * n`; otherwise the loop goes on with the next draws. -/
theorem trial_accepted_iff (numbers : List Int) (r1 r2 : Nat) (rs : List Nat)
    (hne : numbers ≠ []) (hlen : numbers.length < 4294967296) :
    FixedSet.distribute (HashCode.InitializeRandomly numbers.length r1 r2) numbers
        (List.replicate numbers.length [])
      = (List.range numbers.length).map
          (FixedSet.bucket (HashCode.InitializeRandomly numbers.length r1 r2) numbers) ∧
    (∀ i, FixedSet.bucket (HashCode.InitializeRandomly numbers.length r1 r2) numbers i
      = numbers.filter
          (fun x => decide ((HashCode.InitializeRandomly numbers.length r1 r2).call x = i))) ∧
    ((List.range numbers.length).map (fun i =>
      (FixedSet.bucket (HashCode.InitializeRandomly numbers.length r1 r2) numbers i).length)).sum
        = numbers.length ∧
    FixedSet.createLoop numbers numbers.length (r1 :: r2 :: rs)
      = if ((List.range numbers.length).map (fun i =>
            (FixedSet.bucket (HashCode.InitializeRandomly numbers.length r1 r2)
              numbers i).length *
            (FixedSet.bucket (HashCode.InitializeRandomly numbers.length r1 r2)
              numbers i).length)).sum < MEMORY_COEFF * numbers.length
        then some (HashCode.InitializeRandomly numbers.length r1 r2,
          (List.range numbers.length).map
            (FixedSet.bucket (HashCode.InitializeRandomly numbers.length r1 r2) numbers), rs)
        else FixedSet.createLoop numbers numbers.length rs := by
  have hpos : 0 < numbers.length := List.length_pos.mpr hne
  have hlt : ∀ x ∈ numbers, (HashCode.InitializeRandomly numbers.length r1 r2).call x
      < numbers.length := fun x _ => HashCode.call_lt _ hpos x
  have hd := FixedSet.distribute_eq_map_bucket
    (HashCode.InitializeRandomly numbers.length r1 r2) numbers numbers.length hlt
  refine ⟨hd, fun _ => rfl, ?_, ?_⟩
  · rw [FixedSet.sum_map_range]
    exact FixedSet.sum_length_bucket _ _ numbers hlt
  · rw [FixedSet.createLoop, hd, FixedSet.secondLayerPower_eq_sum hlt hlen]

/-- The input `1, 5, 9, 2` with the draws `0, 1` (buckets of sizes `1, 0, 0, 3`,
sum of squares `10 < 12`: accepted) and the input `1, 5, 9, 13` with the draws
`0, 0` (one bucket of size `4`, sum of squares `16`: redrawn; so are the draws
`0, 1`, after which none is left). -/
theorem trial_accepted_iff_witness :
    FixedSet.createLoop [1, 5, 9, 2] 4 [0, 1]
      = some (⟨1, 2, 4⟩, [[2], [], [], [1, 5, 9]], []) ∧
    FixedSet.createLoop [1, 5, 9, 13] 4 [0, 0, 0, 1]
      = FixedSet.createLoop [1, 5, 9, 13] 4 [0, 1] ∧
    FixedSet.createLoop [1, 5, 9, 13] 4 [0, 1] = none :=
  ⟨(trial_accepted_iff [1, 5, 9, 2] 0 1 [] (by decide) (by decide)).2.2.2.trans (by decide),
    (trial_accepted_iff [1, 5, 9, 13] 0 0 [0, 1] (by decide) (by decide)).2.2.2.trans
      (by decide),
    by decide⟩

end FixedSetCpp
